import Mathlib

/-!
Verification of the estnltk layered span data model and conflict resolution.

Shallow embedding of the span/layer core of the estnltk repository.

* `text2` — faithful model of the prototype in `src/estnltk/text2.py`
  (`Span.__init__`, `SpanList.add` / `freeze`, `BaseLayer.freeze`,
  `Layer.add_span`, `EnvelopingLayer.add_spans`).
* `resolver` — model of `resolve_conflicts` (the implementation is not in the
  source tree; modelled from the specification, with its behaviour pinned by
  the fixtures of `src/estnltk/tests/test_layer_operations/test_conflict_resolver.py`).
* `layerM` — model of the `estnltk.layer.Layer` class (not in the source tree;
  modelled from the specification, behaviour pinned by
  `src/estnltk/tests/test_layer/test_layer.py`).
* `ser` — the layer serialisation boundary: `dict_to_layer` faithfully models
  `_dict_to_layer` of `src/estnltk/converters/dict_importer.py` (including its
  `_base`/`_index_` record schema, its parent-before-enveloping dispatch, its
  lack of re-validation and its `list_to_tuple` value coercion); the exporter
  `layer_to_dict` of `src/estnltk/converters/dict_exporter.py` only delegates
  to a serialisation module that is not in the source tree, so its record
  format is modelled from the spec, pinned to the schema the importer
  consumes.
-/

deriving instance DecidableEq for Except

namespace text2

/-- A span of `text2.py`: a half-open interval.  The Python field `end` is a
Lean keyword, so it is called `stop` here. -/
structure Span where
  start : Int
  stop : Int
deriving DecidableEq, Repr

/-- Model of `Span.__init__` (text2.py lines 228-238): the only validation performed is
`assert start < end`; construction succeeds for every pair with
`start < end`, negative values included, and fails otherwise. -/
def Span.init (start stop : Int) : Option Span :=
  if start < stop then some ⟨start, stop⟩ else none

/-- The `(start, end)` ordering key used by `BaseSpan.__lt__` (lexicographic
comparison of `(start, end)` tuples). -/
def Span.keyLt (a b : Span) : Prop :=
  a.start < b.start ∨ (a.start = b.start ∧ a.stop < b.stop)

instance : DecidableRel Span.keyLt := fun a b => by
  unfold Span.keyLt; exact inferInstance

/-- Model of `bisect.insort` on a span list (as used by `SpanList.add`): insert the new
span before the first strictly greater element, i.e. after all elements that
are less than or equal to it. -/
def insort (s : Span) : List Span → List Span
  | [] => [s]
  | t :: rest => if Span.keyLt s t then s :: t :: rest else t :: insort s rest

/-- Model of `SpanList` of text2.py: the sorted list of spans plus the frozen flag. -/
structure SpanList where
  spans : List Span
  frozen : Bool
deriving DecidableEq, Repr

/-- Model of `SpanList.add` (text2.py lines 382-385): raises an `AssertionError` when
the list is frozen, otherwise inserts with `bisect.insort`. -/
def SpanList.add (sl : SpanList) (s : Span) : Except String SpanList :=
  if sl.frozen then Except.error "Can not add to frozen SpanList"
  else Except.ok { sl with spans := insort s sl.spans }

/-- Model of `SpanList.freeze` (text2.py lines 379-380). -/
def SpanList.freeze (sl : SpanList) : SpanList :=
  { sl with frozen := true }

/-- The state of a text2.py `Layer` relevant to span mutation: its span list
and the layer-level `_frozen` flag. -/
structure LayerState where
  spans : SpanList
  lfrozen : Bool
deriving DecidableEq, Repr

/-- Model of `BaseLayer.freeze` (text2.py lines 445-448): when not yet frozen, freezes
the span list and sets the layer flag; otherwise does nothing. -/
def LayerState.freeze (L : LayerState) : LayerState :=
  if L.lfrozen then L
  else { spans := L.spans.freeze, lfrozen := true }

/-- Model of `Layer.add_span` (text2.py lines 565-570) as a state transformer: the only
state change to the layer is `self.spans.add(span)`; on a frozen span list the
assertion error propagates and the layer is left unchanged. -/
def LayerState.add_span (L : LayerState) (s : Span) : Except String LayerState :=
  match L.spans.add s with
  | Except.ok sl => Except.ok { L with spans := sl }
  | Except.error e => Except.error e

/-- The span-mutating operations text2.py exposes on a layer. -/
inductive LayerOp where
  | addSpan (s : Span)
  | freeze
deriving DecidableEq, Repr

/-- One operation step; a raised error leaves the layer state unchanged. -/
def LayerState.step (L : LayerState) : LayerOp → LayerState
  | LayerOp.addSpan s =>
      match L.add_span s with
      | Except.ok L2 => L2
      | Except.error _ => L
  | LayerOp.freeze => L.freeze

/-- Run a sequence of layer operations. -/
def LayerState.run (L : LayerState) : List LayerOp → LayerState
  | [] => L
  | op :: ops => (L.step op).run ops

end text2

namespace text2

/-- The first `start` of a span list (`SpanList.start`, text2.py lines
306-307, `self.spans[0].start`); `none` when the list is empty, where the
Python code would raise an `IndexError`. -/
def SpanList.startO (sl : SpanList) : Option Int :=
  sl.spans.head?.map Span.start

/-- The last `end` of a span list (`SpanList.end`, text2.py lines 310-311,
`self.spans[-1].end`). -/
def SpanList.stopO (sl : SpanList) : Option Int :=
  sl.spans.getLast?.map Span.stop

/-- The composite `SpanList` that `EnvelopingLayer.add_spans` (text2.py lines
687-705) builds from the given child spans: each child is inserted with
`SpanList.add` into a fresh unfrozen list (so the children end up sorted by
`bisect.insort`, whatever order they were given in), and the list is then
frozen.  No check of child order or overlap is performed. -/
def buildComposite (children : List Span) : SpanList :=
  { spans := children.foldl (fun acc s => insort s acc) [], frozen := true }

/-- The state of a text2.py `EnvelopingLayer`: its list of composite spans (a
`SpanList` of `SpanList`s in Python) with the frozen flag of the outer list.
Composite entries are kept in insertion order here; text2.py inserts them with
`bisect.insort` using the composite `(start, end)` keys, which does not affect
any property proved below. -/
structure EnvLayerState where
  composites : List SpanList
  frozen : Bool
deriving DecidableEq, Repr

/-- Model of `EnvelopingLayer.add_spans` (text2.py lines 687-705): builds the composite
span list from the children, freezes it and adds it to the layer's spans.  The
only failure point is `self.spans.add`, which raises when the outer span list
is frozen; the children themselves are never validated. -/
def EnvLayerState.add_spans (L : EnvLayerState) (children : List Span) :
    Except String EnvLayerState :=
  if L.frozen then Except.error "Can not add to frozen SpanList"
  else Except.ok { L with composites := L.composites ++ [buildComposite children] }

end text2

namespace text2

/-- The non-strict `(start, end)` key order (`BaseSpan.__le__`). -/
def Span.keyLe (a b : Span) : Prop :=
  a.start < b.start ∨ (a.start = b.start ∧ a.stop ≤ b.stop)

instance : DecidableRel Span.keyLe := fun a b => by
  unfold Span.keyLe; exact inferInstance

theorem Span.keyLe_of_not_keyLt {a b : Span} (h : ¬ Span.keyLt a b) :
    Span.keyLe b a := by
  simp only [Span.keyLt, not_or, not_and, not_lt] at h
  rcases h with ⟨h1, h2⟩
  rcases lt_or_eq_of_le h1 with h3 | h3
  · exact Or.inl h3
  · exact Or.inr ⟨h3, h2 h3.symm⟩

theorem Span.keyLe_of_keyLt {a b : Span} (h : Span.keyLt a b) : Span.keyLe a b := by
  rcases h with h | ⟨h1, h2⟩
  · exact Or.inl h
  · exact Or.inr ⟨h1, le_of_lt h2⟩

theorem Span.keyLe_trans {a b c : Span} (h1 : Span.keyLe a b) (h2 : Span.keyLe b c) :
    Span.keyLe a c := by
  rcases h1 with h1 | ⟨h1, h1b⟩ <;> rcases h2 with h2 | ⟨h2, h2b⟩
  · exact Or.inl (lt_trans h1 h2)
  · exact Or.inl (h2 ▸ h1)
  · exact Or.inl (h1 ▸ h2)
  · exact Or.inr ⟨h1.trans h2, le_trans h1b h2b⟩

theorem insort_perm (s : Span) (l : List Span) : (insort s l).Perm (s :: l) := by
  induction l with
  | nil => exact List.Perm.refl _
  | cons t rest ih =>
      unfold insort
      by_cases h : Span.keyLt s t
      · simp [h]
      · simp only [h, if_false]
        exact (ih.cons t).trans (List.Perm.swap s t rest)

theorem insort_pairwise (s : Span) (l : List Span)
    (hl : l.Pairwise Span.keyLe) : (insort s l).Pairwise Span.keyLe := by
  induction l with
  | nil => simp [insort]
  | cons t rest ih =>
      unfold insort
      rcases List.pairwise_cons.mp hl with ⟨ht, hrest⟩
      by_cases h : Span.keyLt s t
      · rw [if_pos h]
        refine List.pairwise_cons.mpr ⟨?_, hl⟩
        intro x hx
        rcases List.mem_cons.mp hx with h2 | h2
        · rw [h2]; exact Span.keyLe_of_keyLt h
        · exact Span.keyLe_trans (Span.keyLe_of_keyLt h) (ht x h2)
      · rw [if_neg h]
        refine List.pairwise_cons.mpr ⟨?_, ih hrest⟩
        intro x hx
        rcases List.mem_cons.mp (((insort_perm s rest).mem_iff).mp hx) with h2 | h2
        · rw [h2]; exact Span.keyLe_of_not_keyLt h
        · exact ht x h2

theorem foldl_insort_perm (cs : List Span) (init : List Span) :
    (cs.foldl (fun acc s => insort s acc) init).Perm (cs ++ init) := by
  induction cs generalizing init with
  | nil => simp
  | cons c cs ih =>
      simp only [List.foldl_cons, List.cons_append]
      refine (ih (insort c init)).trans ?_
      refine (List.Perm.append_left cs (insort_perm c init)).trans ?_
      exact List.perm_middle

theorem foldl_insort_pairwise (cs : List Span) (init : List Span)
    (h : init.Pairwise Span.keyLe) :
    (cs.foldl (fun acc s => insort s acc) init).Pairwise Span.keyLe := by
  induction cs generalizing init with
  | nil => exact h
  | cons c cs ih => exact ih _ (insort_pairwise c init h)

end text2

/-- C8: the claim states span creation fails when `start >= end` and also when
either bound is negative.  text2.py `Span.__init__` only asserts `start < end`:
the negative pair `(-2, -1)` has `start < end` and is accepted, refuting the
negativity part of the claim. -/
theorem C8_counterexample :
    text2.Span.init (-2) (-1) = some ⟨-2, -1⟩ ∧ (-2 : Int) < 0 ∧ (-1 : Int) < 0 := by
  refine ⟨?_, by decide, by decide⟩
  unfold text2.Span.init
  decide

/-- C8 (amended): span creation fails exactly when `start >= end`; it succeeds
for every pair with `start < end`, negative values included (in particular for
every pair with `0 <= start < end`). -/
theorem C8_span_init_iff :
    ∀ start stop : Int, (text2.Span.init start stop).isSome = true ↔ start < stop := by
  intro s e
  unfold text2.Span.init
  by_cases h : s < e <;> simp [h]

/-- C9: the claim states that constructing an enveloping span from
out-of-order or overlapping children fails with an error.  text2.py
`EnvelopingLayer.add_spans` performs no such check: the out-of-order,
overlapping children `[3,6), [1,4)` are accepted without error (they are
silently re-sorted by `bisect.insort`), and the composite start is `1`, not
the first given child's start `3`. -/
theorem C9_counterexample :
    text2.EnvLayerState.add_spans ⟨[], false⟩ [⟨3, 6⟩, ⟨1, 4⟩] =
        Except.ok ⟨[⟨[⟨1, 4⟩, ⟨3, 6⟩], true⟩], false⟩ ∧
    (text2.buildComposite [⟨3, 6⟩, ⟨1, 4⟩]).startO = some 1 ∧
    (text2.buildComposite [⟨3, 6⟩, ⟨1, 4⟩]).stopO = some 6 := by
  refine ⟨rfl, by decide, by decide⟩

/-- C9 (amended): on an unfrozen enveloping layer, `add_spans` accepts any
child sequence without error, whatever its order or overlaps; the stored child
sequence of the new composite span is the given children sorted by the
`(start, end)` key, and the composite's `(start, end)` is read from the first
and last element of that stored sequence. -/
theorem C9_add_spans_sorts_children (L : text2.EnvLayerState)
    (children : List text2.Span) (h : L.frozen = false) :
    L.add_spans children =
      Except.ok { L with composites := L.composites ++ [text2.buildComposite children] } ∧
    (text2.buildComposite children).spans.Perm children ∧
    (text2.buildComposite children).spans.Pairwise text2.Span.keyLe ∧
    (text2.buildComposite children).startO =
      ((text2.buildComposite children).spans.head?).map text2.Span.start ∧
    (text2.buildComposite children).stopO =
      ((text2.buildComposite children).spans.getLast?).map text2.Span.stop := by
  refine ⟨?_, ?_, ?_, rfl, rfl⟩
  · unfold text2.EnvLayerState.add_spans
    simp [h]
  · exact (text2.foldl_insort_perm children []).trans (by simp)
  · exact text2.foldl_insort_pairwise children [] (by simp)

theorem C9_add_spans_sorts_children_witness :
    (text2.EnvLayerState.frozen ⟨[], false⟩ = false) ∧
    (text2.EnvLayerState.add_spans ⟨[], false⟩ [⟨3, 6⟩, ⟨1, 4⟩] =
        Except.ok ⟨[text2.buildComposite [⟨3, 6⟩, ⟨1, 4⟩]], false⟩ ∧
      (text2.buildComposite [⟨3, 6⟩, ⟨1, 4⟩]).spans.Perm [⟨3, 6⟩, ⟨1, 4⟩] ∧
      (text2.buildComposite [⟨3, 6⟩, ⟨1, 4⟩]).spans.Pairwise text2.Span.keyLe ∧
      (text2.buildComposite [⟨3, 6⟩, ⟨1, 4⟩]).startO =
        ((text2.buildComposite [⟨3, 6⟩, ⟨1, 4⟩]).spans.head?).map text2.Span.start ∧
      (text2.buildComposite [⟨3, 6⟩, ⟨1, 4⟩]).stopO =
        ((text2.buildComposite [⟨3, 6⟩, ⟨1, 4⟩]).spans.getLast?).map text2.Span.stop) :=
  ⟨rfl, C9_add_spans_sorts_children ⟨[], false⟩ [⟨3, 6⟩, ⟨1, 4⟩] rfl⟩

namespace text2

theorem add_span_frozen_error (L : LayerState) (s : Span)
    (h : L.spans.frozen = true) :
    L.add_span s = Except.error "Can not add to frozen SpanList" := by
  unfold LayerState.add_span SpanList.add
  rw [h]
  rfl

theorem step_of_frozen (L : LayerState) (op : LayerOp)
    (hs : L.spans.frozen = true) (hl : L.lfrozen = true) : L.step op = L := by
  cases op with
  | addSpan s =>
      simp only [LayerState.step]
      rw [add_span_frozen_error L s hs]
  | freeze =>
      simp only [LayerState.step]
      unfold LayerState.freeze
      rw [hl]
      rfl

theorem run_of_frozen (L : LayerState) (ops : List LayerOp)
    (hs : L.spans.frozen = true) (hl : L.lfrozen = true) : L.run ops = L := by
  induction ops with
  | nil => rfl
  | cons op ops ih =>
      unfold LayerState.run
      rw [step_of_frozen L op hs hl]
      exact ih

theorem freeze_lfrozen (L : LayerState) : (L.freeze).lfrozen = true := by
  unfold LayerState.freeze
  by_cases h : L.lfrozen
  · rw [if_pos h]; exact h
  · rw [if_neg h]

theorem freeze_spans_frozen (L : LayerState)
    (h : L.lfrozen = false ∨ L.spans.frozen = true) :
    (L.freeze).spans.frozen = true := by
  unfold LayerState.freeze
  rcases h with h | h
  · rw [if_neg (by simp [h])]
    rfl
  · by_cases h2 : L.lfrozen
    · rw [if_pos h2]; exact h
    · rw [if_neg h2]; rfl

end text2

/-- C10: once `freeze()` has been called on a layer whose flags are coherent
(`Layer.__init__` and `BaseLayer.freeze` always freeze the span list together
with the layer flag, so `lfrozen = true` implies `spans.frozen = true` on every
reachable state), every subsequent `add_span` fails with the assertion error
and the whole state — span sequence and both frozen flags — is permanently
fixed under any further sequence of `add_span` / `freeze` operations; the same
holds for `SpanList.add` after freezing a span list directly. -/
theorem C10_freeze_permanent (L : text2.LayerState)
    (h : L.lfrozen = false ∨ L.spans.frozen = true) :
    (∀ ops : List text2.LayerOp, (L.freeze).run ops = L.freeze) ∧
    (∀ s : text2.Span,
      (L.freeze).add_span s = Except.error "Can not add to frozen SpanList") ∧
    (L.freeze).lfrozen = true ∧ (L.freeze).spans.frozen = true ∧
    (∀ (sl : text2.SpanList) (s : text2.Span),
      (sl.freeze).add s = Except.error "Can not add to frozen SpanList") := by
  have hs := text2.freeze_spans_frozen L h
  have hl := text2.freeze_lfrozen L
  refine ⟨fun ops => text2.run_of_frozen _ ops hs hl,
          fun s => text2.add_span_frozen_error _ s hs, hl, hs, fun sl s => ?_⟩
  unfold text2.SpanList.freeze text2.SpanList.add
  rfl

theorem C10_freeze_permanent_witness :
    ((text2.LayerState.mk ⟨[], false⟩ false).lfrozen = false ∨
      (text2.LayerState.mk ⟨[], false⟩ false).spans.frozen = true) ∧
    ((text2.LayerState.mk ⟨[], false⟩ false).freeze).run
        [text2.LayerOp.addSpan ⟨0, 1⟩, text2.LayerOp.freeze] =
      (text2.LayerState.mk ⟨[], false⟩ false).freeze ∧
    ((text2.LayerState.mk ⟨[], false⟩ false).freeze).add_span ⟨0, 1⟩ =
      Except.error "Can not add to frozen SpanList" :=
  ⟨Or.inl rfl,
   (C10_freeze_permanent (text2.LayerState.mk ⟨[], false⟩ false) (Or.inl rfl)).1 _,
   (C10_freeze_permanent (text2.LayerState.mk ⟨[], false⟩ false) (Or.inl rfl)).2.1 _⟩

namespace Sorting

/-- Insert an element into a list before the first element it relates to;
after all elements it does not relate to (the generic shape of a
`bisect.insort`-style insertion). -/
def insRel {α : Type} (r : α → α → Prop) [DecidableRel r] (x : α) : List α → List α
  | [] => [x]
  | y :: ys => if r x y then x :: y :: ys else y :: insRel r x ys

/-- Insertion sort by the relation `r`. -/
def sortRel {α : Type} (r : α → α → Prop) [DecidableRel r] : List α → List α
  | [] => []
  | x :: xs => insRel r x (sortRel r xs)

theorem insRel_perm {α : Type} (r : α → α → Prop) [DecidableRel r] (x : α)
    (l : List α) : (insRel r x l).Perm (x :: l) := by
  induction l with
  | nil => exact List.Perm.refl _
  | cons y ys ih =>
      unfold insRel
      by_cases h : r x y
      · rw [if_pos h]
      · rw [if_neg h]
        exact (ih.cons y).trans (List.Perm.swap x y ys)

theorem sortRel_perm {α : Type} (r : α → α → Prop) [DecidableRel r]
    (l : List α) : (sortRel r l).Perm l := by
  induction l with
  | nil => exact List.Perm.refl _
  | cons x xs ih =>
      exact (insRel_perm r x (sortRel r xs)).trans (ih.cons x)

theorem insRel_pairwise {α : Type} (r : α → α → Prop) [DecidableRel r]
    (total : ∀ a b, ¬ r a b → r b a) (htrans : ∀ a b c, r a b → r b c → r a c)
    (x : α) (l : List α) (hl : l.Pairwise r) : (insRel r x l).Pairwise r := by
  induction l with
  | nil => simp [insRel]
  | cons y ys ih =>
      unfold insRel
      rcases List.pairwise_cons.mp hl with ⟨hy, hys⟩
      by_cases h : r x y
      · rw [if_pos h]
        refine List.pairwise_cons.mpr ⟨?_, hl⟩
        intro z hz
        rcases List.mem_cons.mp hz with h2 | h2
        · rw [h2]; exact h
        · exact htrans x y z h (hy z h2)
      · rw [if_neg h]
        refine List.pairwise_cons.mpr ⟨?_, ih hys⟩
        intro z hz
        rcases List.mem_cons.mp (((insRel_perm r x ys).mem_iff).mp hz) with h2 | h2
        · rw [h2]; exact total x y h
        · exact hy z h2

theorem sortRel_pairwise {α : Type} (r : α → α → Prop) [DecidableRel r]
    (total : ∀ a b, ¬ r a b → r b a) (htrans : ∀ a b c, r a b → r b c → r a c)
    (l : List α) : (sortRel r l).Pairwise r := by
  induction l with
  | nil => simp [sortRel]
  | cons x xs ih => exact insRel_pairwise r total htrans x (sortRel r xs) ih

end Sorting

namespace resolver

/-- A candidate span for conflict resolution: a half-open interval carrying
the value of its priority attribute (`_priority_` in the fixtures; lower value
means higher precedence).  Modelled from the spec: the `resolve_conflicts`
implementation (`estnltk.layer_operations`) is not in the source tree — only
its test fixtures are — so candidates are modelled as bare
(start, end, priority) triples, with the priority attribute already read off
the span. -/
structure CSpan where
  start : Nat
  stop : Nat
  prio : Nat
deriving DecidableEq, Repr

/-- Two spans conflict when they share at least one character position. -/
def overlaps (a b : CSpan) : Prop :=
  a.start < b.stop ∧ b.start < a.stop

instance : DecidableRel overlaps := fun a b => by
  unfold overlaps; exact inferInstance

/-- Span length `end - start`. -/
def slen (a : CSpan) : Nat := a.stop - a.start

/-- The three conflict-resolution strategies. -/
inductive Strategy where
  | MAX
  | MIN
  | ALL
deriving DecidableEq, Repr

/-- Modelled from the spec: when does candidate `a` defeat an overlapping
candidate `b`?  A strictly lower priority value always wins; on equal
priorities MAX prefers the longer span and MIN the shorter one, while ALL
breaks ties by priority only (spans with equal priorities do not defeat each
other).  The tie-break behaviour follows the test fixtures, which the spec
(§9) designates as the authoritative semantics. -/
def beats : Strategy → CSpan → CSpan → Prop
  | Strategy.MAX, a, b => a.prio < b.prio ∨ (a.prio = b.prio ∧ slen b < slen a)
  | Strategy.MIN, a, b => a.prio < b.prio ∨ (a.prio = b.prio ∧ slen a < slen b)
  | Strategy.ALL, a, b => a.prio < b.prio

instance : ∀ (st : Strategy), DecidableRel (beats st) := fun st a b => by
  cases st <;> (unfold beats; exact inferInstance)

/-- The processing order of candidates: strongest first.  MAX ranks by
(priority, length descending), MIN by (priority, length ascending), ALL by
priority alone.  `rankLe st` is a total preorder and `beats st` is exactly its
strict part restricted to overlapping spans. -/
def rankLe : Strategy → CSpan → CSpan → Prop
  | Strategy.MAX, a, b => a.prio < b.prio ∨ (a.prio = b.prio ∧ slen b ≤ slen a)
  | Strategy.MIN, a, b => a.prio < b.prio ∨ (a.prio = b.prio ∧ slen a ≤ slen b)
  | Strategy.ALL, a, b => a.prio ≤ b.prio

instance : ∀ (st : Strategy), DecidableRel (rankLe st) := fun st a b => by
  cases st <;> (unfold rankLe; exact inferInstance)

/-- Greedy acceptance pass: candidates are examined strongest first, and a
candidate is kept unless an already-kept overlapping candidate defeats it. -/
def accept (st : Strategy) (acc : List CSpan) : List CSpan → List CSpan
  | [] => acc
  | s :: rest =>
      if ∃ t ∈ acc, overlaps t s ∧ beats st t s
      then accept st acc rest
      else accept st (acc ++ [s]) rest

/-- Drop all but the first surviving span of each `(start, end)` location
(the `keep_equal=False` behaviour: equal surviving spans are alternative
analyses and only one is kept). -/
def dedupLoc : List CSpan → List CSpan
  | [] => []
  | s :: rest =>
      s :: (dedupLoc rest).filter (fun t => ¬(t.start = s.start ∧ t.stop = s.stop))

/-- The output order of the resolved layer: sorted by the `(start, end)` key. -/
def locLe (a b : CSpan) : Prop :=
  a.start < b.start ∨ (a.start = b.start ∧ a.stop ≤ b.stop)

instance : DecidableRel locLe := fun a b => by
  unfold locLe; exact inferInstance

/-- Modelled from the spec: `resolve_conflicts(layer, strategy,
priority_attribute, keep_equal)` — the implementation is not in the source
tree.  Candidates are processed strongest first; a candidate survives unless a
surviving candidate overlapping it defeats it; with `keep_equal=False` only
the first survivor of each location is kept; the result is returned in layer
order, sorted by `(start, end)`.  This reproduces every fixture of
`test_conflict_resolver.py`, which the spec (§9) designates as the
authoritative behaviour where its own prose is imprecise. -/
def resolve_conflicts (st : Strategy) (keep_equal : Bool) (spans : List CSpan) :
    List CSpan :=
  let ordered := Sorting.sortRel (rankLe st) spans
  let surv := accept st [] ordered
  let kept := if keep_equal then surv else dedupLoc surv
  Sorting.sortRel locLe kept

/-- Result spans as `(start, end)` pairs, the shape the fixtures assert on. -/
def locsOf (l : List CSpan) : List (Nat × Nat) :=
  l.map (fun s => (s.start, s.stop))

end resolver

namespace resolver

theorem overlaps_symm {a b : CSpan} (h : overlaps a b) : overlaps b a :=
  ⟨h.2, h.1⟩

/-- The model reproduces every fixture of `test_resolve_conflicts_MAX`. -/
theorem fixtures_MAX :
    locsOf (resolve_conflicts Strategy.MAX false []) = [] ∧
    locsOf (resolve_conflicts Strategy.MAX false [⟨1, 4, 0⟩]) = [(1, 4)] ∧
    locsOf (resolve_conflicts Strategy.MAX false [⟨1, 4, 0⟩, ⟨1, 4, 0⟩]) = [(1, 4)] ∧
    locsOf (resolve_conflicts Strategy.MAX false [⟨1, 4, 0⟩, ⟨1, 6, 0⟩]) = [(1, 6)] ∧
    locsOf (resolve_conflicts Strategy.MAX false [⟨3, 6, 0⟩, ⟨1, 6, 0⟩]) = [(1, 6)] := by
  refine ⟨rfl, by decide, by decide, by decide, by decide⟩

/-- The model reproduces every fixture of `test_resolve_conflicts_MIN`. -/
theorem fixtures_MIN :
    locsOf (resolve_conflicts Strategy.MIN false [⟨1, 4, 0⟩, ⟨1, 6, 0⟩]) = [(1, 4)] ∧
    locsOf (resolve_conflicts Strategy.MIN false [⟨3, 6, 0⟩, ⟨1, 6, 0⟩]) = [(3, 6)] ∧
    locsOf (resolve_conflicts Strategy.MIN false [⟨1, 8, 0⟩, ⟨2, 4, 0⟩, ⟨3, 6, 0⟩])
      = [(2, 4)] ∧
    locsOf (resolve_conflicts Strategy.MIN false [⟨1, 8, 1⟩, ⟨2, 4, 1⟩, ⟨3, 6, 0⟩])
      = [(3, 6)] := by
  refine ⟨by decide, by decide, by decide, by decide⟩

/-- The model reproduces every fixture of `test_resolve_conflicts_ALL` and of
`test_resolve_conflicts_ambiguous_layer` (ambiguous locations flattened to one
candidate per attached priority). -/
theorem fixtures_ALL :
    locsOf (resolve_conflicts Strategy.ALL false [⟨1, 8, 1⟩, ⟨2, 4, 1⟩, ⟨3, 6, 0⟩])
      = [(3, 6)] ∧
    locsOf (resolve_conflicts Strategy.ALL false [⟨1, 3, 2⟩, ⟨2, 7, 1⟩, ⟨4, 8, 0⟩])
      = [(1, 3), (4, 8)] ∧
    locsOf (resolve_conflicts Strategy.ALL true
        [⟨1, 2, 0⟩, ⟨2, 3, 1⟩, ⟨2, 3, 2⟩, ⟨2, 3, 3⟩, ⟨2, 3, 4⟩,
         ⟨4, 5, 1⟩, ⟨4, 5, 1⟩, ⟨4, 5, 0⟩, ⟨4, 5, 0⟩,
         ⟨6, 7, 2⟩, ⟨6, 7, 1⟩, ⟨6, 7, 2⟩, ⟨6, 7, 3⟩])
      = [(1, 2), (2, 3), (4, 5), (4, 5), (6, 7)] ∧
    locsOf (resolve_conflicts Strategy.ALL false
        [⟨1, 4, 0⟩, ⟨3, 6, 1⟩, ⟨3, 6, 2⟩, ⟨3, 6, 3⟩, ⟨3, 6, 4⟩,
         ⟨5, 7, 1⟩, ⟨5, 7, 1⟩, ⟨5, 7, 0⟩, ⟨5, 7, 0⟩])
      = [(1, 4), (5, 7)] := by
  refine ⟨by decide, by decide, by decide, by decide⟩

theorem dedupLoc_subset (l : List CSpan) : ∀ x ∈ dedupLoc l, x ∈ l := by
  induction l with
  | nil => simp [dedupLoc]
  | cons s rest ih =>
      intro x hx
      rcases List.mem_cons.mp hx with h | h
      · rw [h]; exact List.mem_cons_self _ _
      · exact List.mem_cons_of_mem _ (ih x (List.mem_of_mem_filter h))

/-- Key invariant of the greedy acceptance pass under strategy ALL: when the
pending candidates are sorted by priority, never preceded by a stronger
already-accepted span, and the accepted spans only overlap at equal priority,
then any two overlapping spans of the final result have equal priority. -/
theorem accept_all_prio_eq (acc rest : List CSpan)
    (hacc : ∀ s ∈ acc, ∀ t ∈ acc, overlaps s t → s.prio = t.prio)
    (hsorted : rest.Pairwise (rankLe Strategy.ALL))
    (hcross : ∀ s ∈ acc, ∀ t ∈ rest, s.prio ≤ t.prio) :
    ∀ s ∈ accept Strategy.ALL acc rest, ∀ t ∈ accept Strategy.ALL acc rest,
      overlaps s t → s.prio = t.prio := by
  induction rest generalizing acc with
  | nil => exact hacc
  | cons c rest ih =>
      rcases List.pairwise_cons.mp hsorted with ⟨hc, hrest⟩
      simp only [accept]
      by_cases h : ∃ t ∈ acc, overlaps t c ∧ beats Strategy.ALL t c
      · rw [if_pos h]
        exact ih acc hacc hrest
          (fun s hs t ht => hcross s hs t (List.mem_cons_of_mem c ht))
      · rw [if_neg h]
        push_neg at h
        refine ih (acc ++ [c]) ?_ hrest ?_
        · intro s hs t ht hov
          rcases List.mem_append.mp hs with hs | hs <;>
            rcases List.mem_append.mp ht with ht | ht
          · exact hacc s hs t ht hov
          · rw [List.mem_singleton.mp ht] at hov ⊢
            have h1 := hcross s hs c (List.mem_cons_self c rest)
            have h2 := h s hs hov
            simp only [beats] at h2
            omega
          · rw [List.mem_singleton.mp hs] at hov ⊢
            have h1 := hcross t ht c (List.mem_cons_self c rest)
            have h2 := h t ht (overlaps_symm hov)
            simp only [beats] at h2
            omega
          · rw [List.mem_singleton.mp hs, List.mem_singleton.mp ht]
        · intro s hs t ht
          rcases List.mem_append.mp hs with hs | hs
          · exact hcross s hs t (List.mem_cons_of_mem c ht)
          · rw [List.mem_singleton.mp hs]
            exact hc t ht

theorem rankLe_ALL_total (a b : CSpan) (h : ¬ rankLe Strategy.ALL a b) :
    rankLe Strategy.ALL b a := by
  simp only [rankLe] at *
  omega

theorem rankLe_ALL_trans (a b c : CSpan) (h1 : rankLe Strategy.ALL a b)
    (h2 : rankLe Strategy.ALL b c) : rankLe Strategy.ALL a c := by
  simp only [rankLe] at *
  omega

end resolver

/-- C1: the two MAX-strategy fixtures of the spec (and of
`test_resolve_conflicts_MAX`, lines 44-60): with spans
`{[1,8) prio 0, [2,4) prio 1, [3,6) prio 1}` the resolver returns exactly
`[(1,8)]`, and with `{[1,8) prio 1, [2,4) prio 0, [3,6) prio 1}` it returns
exactly `[(2,4)]`, for either value of `keep_equal`. -/
theorem C1_max_examples : ∀ keep_equal : Bool,
    resolver.locsOf (resolver.resolve_conflicts resolver.Strategy.MAX keep_equal
      [⟨1, 8, 0⟩, ⟨2, 4, 1⟩, ⟨3, 6, 1⟩]) = [(1, 8)] ∧
    resolver.locsOf (resolver.resolve_conflicts resolver.Strategy.MAX keep_equal
      [⟨1, 8, 1⟩, ⟨2, 4, 0⟩, ⟨3, 6, 1⟩]) = [(2, 4)] := by
  intro ke
  cases ke <;> exact ⟨by decide, by decide⟩

/-- C2: the claim that the ALL-strategy output is always pairwise
non-overlapping is refuted by the first fixture of
`test_resolve_conflicts_ALL` (lines 121-129): on the equal-priority input
`{[1,8), [2,4), [3,6), all prio 0}` the resolver keeps all three spans, and
`[1,8)` and `[2,4)` are distinct result locations sharing positions 2 and 3. -/
theorem C2_counterexample :
    resolver.locsOf (resolver.resolve_conflicts resolver.Strategy.ALL false
      [⟨1, 8, 0⟩, ⟨2, 4, 0⟩, ⟨3, 6, 0⟩]) = [(1, 8), (2, 4), (3, 6)] ∧
    (⟨1, 8, 0⟩ : resolver.CSpan) ∈ resolver.resolve_conflicts resolver.Strategy.ALL false
      [⟨1, 8, 0⟩, ⟨2, 4, 0⟩, ⟨3, 6, 0⟩] ∧
    (⟨2, 4, 0⟩ : resolver.CSpan) ∈ resolver.resolve_conflicts resolver.Strategy.ALL false
      [⟨1, 8, 0⟩, ⟨2, 4, 0⟩, ⟨3, 6, 0⟩] ∧
    resolver.overlaps ⟨1, 8, 0⟩ ⟨2, 4, 0⟩ ∧
    ((1, 8) : Nat × Nat) ≠ (2, 4) := by
  refine ⟨by decide, by decide, by decide, by decide, by decide⟩

/-- C2 (amended): under strategy ALL a span is dropped only when a surviving
overlapping span has strictly lower priority value, so any two spans of the
output that overlap have equal priority; outputs are pairwise non-overlapping
whenever the priorities of conflicting spans differ, but equal-priority
overlapping spans are all kept. -/
theorem C2_all_overlap_equal_priority (spans : List resolver.CSpan)
    (keep_equal : Bool) :
    ∀ s ∈ resolver.resolve_conflicts resolver.Strategy.ALL keep_equal spans,
    ∀ t ∈ resolver.resolve_conflicts resolver.Strategy.ALL keep_equal spans,
      resolver.overlaps s t → s.prio = t.prio := by
  intro s hs t ht hov
  unfold resolver.resolve_conflicts at hs ht
  rw [(Sorting.sortRel_perm _ _).mem_iff] at hs ht
  have hsurv : ∀ x : resolver.CSpan,
      x ∈ (if keep_equal
            then resolver.accept resolver.Strategy.ALL []
                  (Sorting.sortRel (resolver.rankLe resolver.Strategy.ALL) spans)
            else resolver.dedupLoc (resolver.accept resolver.Strategy.ALL []
                  (Sorting.sortRel (resolver.rankLe resolver.Strategy.ALL) spans))) →
      x ∈ resolver.accept resolver.Strategy.ALL []
            (Sorting.sortRel (resolver.rankLe resolver.Strategy.ALL) spans) := by
    intro x hx
    by_cases hk : keep_equal
    · rwa [if_pos hk] at hx
    · rw [if_neg hk] at hx
      exact resolver.dedupLoc_subset _ x hx
  refine resolver.accept_all_prio_eq [] _ (by simp) ?_ (by simp)
    s (hsurv s hs) t (hsurv t ht) hov
  exact Sorting.sortRel_pairwise _ resolver.rankLe_ALL_total resolver.rankLe_ALL_trans _

theorem C2_all_overlap_equal_priority_witness :
    (⟨1, 8, 0⟩ : resolver.CSpan) ∈ resolver.resolve_conflicts resolver.Strategy.ALL true
      [⟨1, 8, 0⟩, ⟨2, 4, 0⟩] ∧
    (⟨2, 4, 0⟩ : resolver.CSpan) ∈ resolver.resolve_conflicts resolver.Strategy.ALL true
      [⟨1, 8, 0⟩, ⟨2, 4, 0⟩] ∧
    resolver.overlaps ⟨1, 8, 0⟩ ⟨2, 4, 0⟩ ∧
    (⟨1, 8, 0⟩ : resolver.CSpan).prio = (⟨2, 4, 0⟩ : resolver.CSpan).prio :=
  ⟨by decide, by decide, by decide,
   C2_all_overlap_equal_priority [⟨1, 8, 0⟩, ⟨2, 4, 0⟩] true
     ⟨1, 8, 0⟩ (by decide) ⟨2, 4, 0⟩ (by decide) (by decide)⟩

namespace layerM

/-- One annotation record modelled as attribute-name/value pairs (values kept
abstract as strings). -/
abbrev Anno := List (String × String)

/-- A span entry of a layer: one `(start, end)` location holding the ordered
list of the annotation records attached at that location. -/
structure SpanEntry where
  start : Nat
  stop : Nat
  annos : List Anno
deriving DecidableEq, Repr

/-- The `(start, end)` location key of an entry. -/
def SpanEntry.loc (en : SpanEntry) : Nat × Nat := (en.start, en.stop)

/-- Modelled from the spec: the `estnltk.layer.Layer` class is not in the
source tree (only its tests are).  A layer owns its declared attribute tuple,
the `ambiguous` flag and the ordered span entries (spec §3); the topology
fields play no role in the add-span claims and are omitted here. -/
structure Layer where
  attributes : List String
  ambiguous : Bool
  span_list : List SpanEntry
deriving DecidableEq, Repr

/-- The error kinds of `Layer.add_span` named by the spec (§4.2, §7). -/
inductive LayerError where
  | DuplicateSpanError
  | AttributeMismatchError
deriving DecidableEq, Repr

/-- An annotation covers the declared attributes exactly: its key list is a
permutation of the layer's attribute tuple — no missing, no extra (spec §3). -/
def covers (attrs : List String) (a : Anno) : Prop :=
  (a.map Prod.fst).Perm attrs

instance : ∀ attrs a, Decidable (covers attrs a) := fun attrs a => by
  unfold covers; exact inferInstance

/-- Strict lexicographic order on `(start, end)` location keys. -/
def locLt (p q : Nat × Nat) : Prop :=
  p.1 < q.1 ∨ (p.1 = q.1 ∧ p.2 < q.2)

instance : DecidableRel locLt := fun p q => by
  unfold locLt; exact inferInstance

/-- Strict `(start, end)` order on span entries. -/
def entLt (a b : SpanEntry) : Prop := locLt a.loc b.loc

instance : DecidableRel entLt := fun a b => by
  unfold entLt; exact inferInstance

/-- Update one entry for an ambiguous add at its own location: append the new
annotation unless an identical annotation is already attached there (the
repository's `test_add_span` shows that adding an identical annotation twice
leaves the annotation count at 1: `len(layer[0]) == 1`). -/
def updAnnos (s e : Nat) (a : Anno) (en : SpanEntry) : SpanEntry :=
  if en.loc = (s, e) then
    (if a ∈ en.annos then en else { en with annos := en.annos ++ [a] })
  else en

/-- Modelled from the spec (§4.2), behaviour pinned by `test_add_span`:
`Layer.add_span`.  The annotation must cover the declared attributes exactly;
on an unambiguous layer a location clash fails with `DuplicateSpanError`,
otherwise the entry is inserted at its sorted position; on an ambiguous layer
an existing location absorbs the new annotation (deduplicating identical
annotations) and a new location is inserted at its sorted position with a
one-element annotation list. -/
def Layer.add_span (L : Layer) (s e : Nat) (a : Anno) : Except LayerError Layer :=
  if ¬ covers L.attributes a then Except.error LayerError.AttributeMismatchError
  else if L.ambiguous then
    (if ∃ en ∈ L.span_list, en.loc = (s, e) then
      Except.ok { L with span_list := L.span_list.map (updAnnos s e a) }
    else
      Except.ok { L with span_list := Sorting.insRel entLt ⟨s, e, [a]⟩ L.span_list })
  else
    (if ∃ en ∈ L.span_list, en.loc = (s, e) then
      Except.error LayerError.DuplicateSpanError
    else
      Except.ok { L with span_list := Sorting.insRel entLt ⟨s, e, [a]⟩ L.span_list })

/-- One `add_span` call of a driver program; a raised error leaves the layer
unchanged in the caller's hands. -/
structure AddOp where
  start : Nat
  stop : Nat
  anno : Anno
deriving DecidableEq, Repr

/-- Apply one `add_span` call, keeping the old layer on error. -/
def Layer.applyAdd (L : Layer) (op : AddOp) : Layer :=
  match L.add_span op.start op.stop op.anno with
  | Except.ok L2 => L2
  | Except.error _ => L

/-- Run any sequence of `add_span` calls. -/
def Layer.runAdds (L : Layer) : List AddOp → Layer
  | [] => L
  | op :: ops => (L.applyAdd op).runAdds ops

end layerM

namespace layerM

theorem locLt_trans {p q r : Nat × Nat} (h1 : locLt p q) (h2 : locLt q r) :
    locLt p r := by
  unfold locLt at *
  omega

theorem locLt_irrefl (p : Nat × Nat) : ¬ locLt p p := by
  unfold locLt
  omega

theorem locLt_of_not_of_ne {p q : Nat × Nat} (h1 : ¬ locLt p q) (h2 : p ≠ q) :
    locLt q p := by
  obtain ⟨p1, p2⟩ := p
  obtain ⟨q1, q2⟩ := q
  simp only [Ne, Prod.mk.injEq, not_and] at h2
  unfold locLt at *
  simp only [] at *
  by_cases hq : p1 = q1
  · have := h2 hq
    omega
  · omega

theorem entLt_trans {a b c : SpanEntry} (h1 : entLt a b) (h2 : entLt b c) :
    entLt a c := locLt_trans h1 h2

theorem entLt_loc_ne {a b : SpanEntry} (h : entLt a b) : a.loc ≠ b.loc := by
  intro hEq
  have h2 : locLt a.loc b.loc := h
  rw [← hEq] at h2
  exact locLt_irrefl a.loc h2

theorem entLt_of_not_of_loc_ne {a b : SpanEntry} (h1 : ¬ entLt a b)
    (h2 : b.loc ≠ a.loc) : entLt b a :=
  locLt_of_not_of_ne h1 (fun hEq => h2 hEq.symm)

theorem insRel_entLt_pairwise (x : SpanEntry) (l : List SpanEntry)
    (hl : l.Pairwise entLt) (hx : ∀ en ∈ l, en.loc ≠ x.loc) :
    (Sorting.insRel entLt x l).Pairwise entLt := by
  induction l with
  | nil => simp [Sorting.insRel]
  | cons y ys ih =>
      unfold Sorting.insRel
      rcases List.pairwise_cons.mp hl with ⟨hy, hys⟩
      by_cases h : entLt x y
      · rw [if_pos h]
        refine List.pairwise_cons.mpr ⟨?_, hl⟩
        intro z hz
        rcases List.mem_cons.mp hz with h2 | h2
        · rw [h2]; exact h
        · exact entLt_trans h (hy z h2)
      · rw [if_neg h]
        refine List.pairwise_cons.mpr
          ⟨?_, ih hys (fun en hen => hx en (List.mem_cons_of_mem _ hen))⟩
        intro z hz
        rcases List.mem_cons.mp
            (((Sorting.insRel_perm entLt x ys).mem_iff).mp hz) with h2 | h2
        · rw [h2]
          exact entLt_of_not_of_loc_ne h (hx y (List.mem_cons_self _ _))
        · exact hy z h2

theorem updAnnos_loc (s e : Nat) (a : Anno) (en : SpanEntry) :
    (updAnnos s e a en).loc = en.loc := by
  unfold updAnnos
  by_cases h1 : en.loc = (s, e)
  · rw [if_pos h1]
    by_cases h2 : a ∈ en.annos
    · rw [if_pos h2]
    · rw [if_neg h2]; rfl
  · rw [if_neg h1]

theorem applyAdd_pairwise (L : Layer) (op : AddOp)
    (h : L.span_list.Pairwise entLt) :
    (L.applyAdd op).span_list.Pairwise entLt := by
  unfold Layer.applyAdd Layer.add_span
  by_cases hcov : covers L.attributes op.anno
  · rw [if_neg (not_not_intro hcov)]
    by_cases hamb : L.ambiguous = true
    · rw [if_pos hamb]
      by_cases hex : ∃ en ∈ L.span_list, en.loc = (op.start, op.stop)
      · rw [if_pos hex]
        exact h.map _ (fun a b hab => by
          show entLt (updAnnos _ _ _ a) (updAnnos _ _ _ b)
          unfold entLt
          rw [updAnnos_loc, updAnnos_loc]
          exact hab)
      · rw [if_neg hex]
        push_neg at hex
        exact insRel_entLt_pairwise _ _ h (fun en hen => hex en hen)
    · rw [if_neg hamb]
      by_cases hex : ∃ en ∈ L.span_list, en.loc = (op.start, op.stop)
      · rw [if_pos hex]
        exact h
      · rw [if_neg hex]
        push_neg at hex
        exact insRel_entLt_pairwise _ _ h (fun en hen => hex en hen)
  · rw [if_pos hcov]
    exact h

theorem runAdds_pairwise (L : Layer) (ops : List AddOp)
    (h : L.span_list.Pairwise entLt) :
    (L.runAdds ops).span_list.Pairwise entLt := by
  induction ops generalizing L with
  | nil => exact h
  | cons op ops ih => exact ih _ (applyAdd_pairwise L op h)

end layerM

/-- C3: starting from any layer whose span entries satisfy the order
invariant, after any sequence of `add_span` calls in any insertion order the
span sequence is strictly increasing by the `(start, end)` key and no two
entries share the same `(start, end)` pair. -/
theorem C3_spans_sorted_unique (L : layerM.Layer) (ops : List layerM.AddOp)
    (h : L.span_list.Pairwise layerM.entLt) :
    ((L.runAdds ops).span_list.Pairwise layerM.entLt) ∧
    ((L.runAdds ops).span_list.Pairwise
      (fun a b => layerM.SpanEntry.loc a ≠ layerM.SpanEntry.loc b)) := by
  have hs := layerM.runAdds_pairwise L ops h
  exact ⟨hs, hs.imp (fun hab => layerM.entLt_loc_ne hab)⟩

theorem C3_spans_sorted_unique_witness :
    (([] : List layerM.SpanEntry).Pairwise layerM.entLt) ∧
    ((layerM.Layer.runAdds ⟨["a"], false, []⟩
        [⟨1, 2, [("a", "x")]⟩, ⟨0, 1, [("a", "y")]⟩, ⟨1, 2, [("a", "z")]⟩]).span_list.Pairwise
          layerM.entLt ∧
      (layerM.Layer.runAdds ⟨["a"], false, []⟩
        [⟨1, 2, [("a", "x")]⟩, ⟨0, 1, [("a", "y")]⟩, ⟨1, 2, [("a", "z")]⟩]).span_list.Pairwise
          (fun a b => layerM.SpanEntry.loc a ≠ layerM.SpanEntry.loc b)) :=
  ⟨List.Pairwise.nil,
   C3_spans_sorted_unique ⟨["a"], false, []⟩
     [⟨1, 2, [("a", "x")]⟩, ⟨0, 1, [("a", "y")]⟩, ⟨1, 2, [("a", "z")]⟩]
     List.Pairwise.nil⟩

/-- C4: on a layer with `ambiguous = False`, `add_span` at an already-present
`(start, end)` location fails with `DuplicateSpanError` and (the error
propagating before any mutation) leaves the layer unchanged; at a fresh
location the entry is inserted at its sorted position. -/
theorem C4_unambiguous_add (L : layerM.Layer) (s e : Nat) (a : layerM.Anno)
    (hamb : L.ambiguous = false) (hcov : layerM.covers L.attributes a) :
    ((∃ en ∈ L.span_list, en.loc = (s, e)) →
        L.add_span s e a = Except.error layerM.LayerError.DuplicateSpanError ∧
        L.applyAdd ⟨s, e, a⟩ = L) ∧
    ((¬ ∃ en ∈ L.span_list, en.loc = (s, e)) →
        L.add_span s e a =
          Except.ok { L with
            span_list := Sorting.insRel layerM.entLt ⟨s, e, [a]⟩ L.span_list }) := by
  have hne : ¬ L.ambiguous = true := by rw [hamb]; exact Bool.false_ne_true
  constructor
  · intro hex
    have herr : L.add_span s e a = Except.error layerM.LayerError.DuplicateSpanError := by
      unfold layerM.Layer.add_span
      rw [if_neg (not_not_intro hcov), if_neg hne, if_pos hex]
    refine ⟨herr, ?_⟩
    unfold layerM.Layer.applyAdd
    rw [herr]
  · intro hex
    unfold layerM.Layer.add_span
    rw [if_neg (not_not_intro hcov), if_neg hne, if_neg hex]

theorem C4_unambiguous_add_witness :
    ((layerM.Layer.mk ["a"] false [⟨0, 1, [[("a", "s1")]]⟩]).ambiguous = false) ∧
    (layerM.covers ["a"] [("a", "s1")]) ∧
    (((∃ en ∈ [(⟨0, 1, [[("a", "s1")]]⟩ : layerM.SpanEntry)], en.loc = (0, 1)) →
        (layerM.Layer.mk ["a"] false [⟨0, 1, [[("a", "s1")]]⟩]).add_span 0 1 [("a", "s1")]
          = Except.error layerM.LayerError.DuplicateSpanError ∧
        (layerM.Layer.mk ["a"] false [⟨0, 1, [[("a", "s1")]]⟩]).applyAdd ⟨0, 1, [("a", "s1")]⟩
          = layerM.Layer.mk ["a"] false [⟨0, 1, [[("a", "s1")]]⟩]) ∧
      ((¬ ∃ en ∈ [(⟨0, 1, [[("a", "s1")]]⟩ : layerM.SpanEntry)], en.loc = (0, 1)) →
        (layerM.Layer.mk ["a"] false [⟨0, 1, [[("a", "s1")]]⟩]).add_span 0 1 [("a", "s1")]
          = Except.ok { layerM.Layer.mk ["a"] false [⟨0, 1, [[("a", "s1")]]⟩] with
              span_list := Sorting.insRel layerM.entLt ⟨0, 1, [[("a", "s1")]]⟩
                [⟨0, 1, [[("a", "s1")]]⟩] })) := by
  refine ⟨rfl, by decide, ?_⟩
  exact C4_unambiguous_add (layerM.Layer.mk ["a"] false [⟨0, 1, [[("a", "s1")]]⟩])
    0 1 [("a", "s1")] rfl (by decide)

/-- C5: the claim states every `add_span` at an existing location increases
that location's annotation count by exactly one.  `test_add_span` (lines
14-31) shows otherwise: adding an annotation identical to one already at the
location is deduplicated (`len(layer[0]) == 1` after the same annotation is
added twice at `(0, 1)`), so the count stays at 1 on the second call. -/
theorem C5_counterexample :
    layerM.Layer.add_span ⟨["a", "b", "c"], true, []⟩ 0 1
        [("a", "s1"), ("b", "T"), ("c", "N")] =
      Except.ok ⟨["a", "b", "c"], true, [⟨0, 1, [[("a", "s1"), ("b", "T"), ("c", "N")]]⟩]⟩ ∧
    layerM.Layer.add_span
        ⟨["a", "b", "c"], true, [⟨0, 1, [[("a", "s1"), ("b", "T"), ("c", "N")]]⟩]⟩ 0 1
        [("a", "s1"), ("b", "T"), ("c", "N")] =
      Except.ok ⟨["a", "b", "c"], true, [⟨0, 1, [[("a", "s1"), ("b", "T"), ("c", "N")]]⟩]⟩ ∧
    ([(⟨0, 1, [[("a", "s1"), ("b", "T"), ("c", "N")]]⟩ : layerM.SpanEntry)].map
        (fun en => en.annos.length)) = [1] := by
  refine ⟨by decide, by decide, by decide⟩

/-- C5 (amended): on an ambiguous layer, `add_span` at a location that already
has a span entry never creates a second entry there (the location sequence is
unchanged); it increases that entry's annotation count by exactly one when the
added annotation differs from every annotation already at the location, and
leaves the count unchanged when an identical annotation is already present. -/
theorem C5_ambiguous_add_count (L : layerM.Layer) (s e : Nat) (a : layerM.Anno)
    (en : layerM.SpanEntry) (hamb : L.ambiguous = true)
    (hcov : layerM.covers L.attributes a) (hen : en ∈ L.span_list)
    (hloc : en.loc = (s, e)) :
    L.add_span s e a =
        Except.ok { L with span_list := L.span_list.map (layerM.updAnnos s e a) } ∧
    (L.span_list.map (layerM.updAnnos s e a)).map layerM.SpanEntry.loc =
        L.span_list.map layerM.SpanEntry.loc ∧
    (L.span_list.map (layerM.updAnnos s e a)).length = L.span_list.length ∧
    layerM.updAnnos s e a en ∈ L.span_list.map (layerM.updAnnos s e a) ∧
    (a ∈ en.annos → (layerM.updAnnos s e a en).annos.length = en.annos.length) ∧
    (a ∉ en.annos → (layerM.updAnnos s e a en).annos.length = en.annos.length + 1) := by
  refine ⟨?_, ?_, by rw [List.length_map], List.mem_map_of_mem _ hen, ?_, ?_⟩
  · unfold layerM.Layer.add_span
    rw [if_neg (not_not_intro hcov), if_pos hamb, if_pos ⟨en, hen, hloc⟩]
  · rw [List.map_map]
    exact List.map_congr_left (fun x _ => layerM.updAnnos_loc s e a x)
  · intro hmem
    unfold layerM.updAnnos
    rw [if_pos hloc, if_pos hmem]
  · intro hmem
    unfold layerM.updAnnos
    rw [if_pos hloc, if_neg hmem]
    simp

theorem C5_ambiguous_add_count_witness :
    ((layerM.Layer.mk ["a"] true [⟨0, 1, [[("a", "s1")]]⟩]).ambiguous = true) ∧
    (layerM.covers ["a"] [("a", "s4")]) ∧
    ((⟨0, 1, [[("a", "s1")]]⟩ : layerM.SpanEntry) ∈
      [(⟨0, 1, [[("a", "s1")]]⟩ : layerM.SpanEntry)]) ∧
    ((⟨0, 1, [[("a", "s1")]]⟩ : layerM.SpanEntry).loc = (0, 1)) ∧
    ((layerM.Layer.mk ["a"] true [⟨0, 1, [[("a", "s1")]]⟩]).add_span 0 1 [("a", "s4")] =
        Except.ok { layerM.Layer.mk ["a"] true [⟨0, 1, [[("a", "s1")]]⟩] with
          span_list := [(⟨0, 1, [[("a", "s1")]]⟩ : layerM.SpanEntry)].map
            (layerM.updAnnos 0 1 [("a", "s4")]) } ∧
      ([(⟨0, 1, [[("a", "s1")]]⟩ : layerM.SpanEntry)].map
          (layerM.updAnnos 0 1 [("a", "s4")])).map layerM.SpanEntry.loc =
        [(⟨0, 1, [[("a", "s1")]]⟩ : layerM.SpanEntry)].map layerM.SpanEntry.loc ∧
      ([(⟨0, 1, [[("a", "s1")]]⟩ : layerM.SpanEntry)].map
          (layerM.updAnnos 0 1 [("a", "s4")])).length =
        [(⟨0, 1, [[("a", "s1")]]⟩ : layerM.SpanEntry)].length ∧
      layerM.updAnnos 0 1 [("a", "s4")] ⟨0, 1, [[("a", "s1")]]⟩ ∈
        [(⟨0, 1, [[("a", "s1")]]⟩ : layerM.SpanEntry)].map
          (layerM.updAnnos 0 1 [("a", "s4")]) ∧
      ([("a", "s4")] ∈ ([[("a", "s1")]] : List layerM.Anno) →
        (layerM.updAnnos 0 1 [("a", "s4")] ⟨0, 1, [[("a", "s1")]]⟩).annos.length =
          ([[("a", "s1")]] : List layerM.Anno).length) ∧
      ([("a", "s4")] ∉ ([[("a", "s1")]] : List layerM.Anno) →
        (layerM.updAnnos 0 1 [("a", "s4")] ⟨0, 1, [[("a", "s1")]]⟩).annos.length =
          ([[("a", "s1")]] : List layerM.Anno).length + 1)) :=
  ⟨rfl, by decide, by decide, rfl,
   C5_ambiguous_add_count (layerM.Layer.mk ["a"] true [⟨0, 1, [[("a", "s1")]]⟩])
     0 1 [("a", "s4")] ⟨0, 1, [[("a", "s1")]]⟩ rfl (by decide) (by decide) rfl⟩

namespace layerM

/-- Modelled from the spec (§4.2): `check_span_consistency` — the
implementation (`estnltk.layer.Layer.check_span_consistency`) is not in the
source tree.  It re-validates the layer-local invariants of §3 on the flat
layer model — adjacent entries strictly increasing by `(start, end)` (which
on a fully sorted list is equivalent to the global order plus uniqueness),
every entry holding at least one annotation whose keys cover exactly the
declared attributes, and exactly one annotation per entry on an unambiguous
layer — and reports a consistency error otherwise.  It only reads the layer:
the layer handed back to the caller is returned unchanged as the second
component. -/
def check_span_consistency (L : Layer) : Except String Unit × Layer :=
  if (L.span_list.Chain' entLt)
      ∧ (∀ en ∈ L.span_list, en.annos ≠ [] ∧ ∀ a ∈ en.annos, covers L.attributes a)
      ∧ (L.ambiguous = false → ∀ en ∈ L.span_list, en.annos.length = 1)
  then (Except.ok (), L)
  else (Except.error "ConsistencyError", L)

end layerM

/-- C7: on a valid layer — span entries strictly ordered by `(start, end)`,
every entry holding at least one attribute-complete annotation, exactly one
per entry when unambiguous — `check_span_consistency` raises no error, hands
the layer back unchanged, and calling it a second time on the layer returned
by the first call again raises no error and sees exactly the same state. -/
theorem C7_check_consistency_idempotent (L : layerM.Layer)
    (hsorted : L.span_list.Pairwise layerM.entLt)
    (hannos : ∀ en ∈ L.span_list,
      en.annos ≠ [] ∧ ∀ a ∈ en.annos, layerM.covers L.attributes a)
    (hunamb : L.ambiguous = false → ∀ en ∈ L.span_list, en.annos.length = 1) :
    layerM.check_span_consistency L = (Except.ok (), L) ∧
    layerM.check_span_consistency (layerM.check_span_consistency L).2 =
      (Except.ok (), L) := by
  have hok : layerM.check_span_consistency L = (Except.ok (), L) := by
    unfold layerM.check_span_consistency
    rw [if_pos ⟨hsorted.chain', hannos, hunamb⟩]
  refine ⟨hok, ?_⟩
  rw [hok]
  exact hok

theorem C7_check_consistency_idempotent_witness :
    (([(⟨0, 1, [[("a", "x")]]⟩ : layerM.SpanEntry), ⟨1, 3, [[("a", "y")]]⟩].Pairwise
        layerM.entLt) ∧
      (∀ en ∈ [(⟨0, 1, [[("a", "x")]]⟩ : layerM.SpanEntry), ⟨1, 3, [[("a", "y")]]⟩],
        en.annos ≠ [] ∧ ∀ a ∈ en.annos, layerM.covers ["a"] a) ∧
      ((layerM.Layer.mk ["a"] false
          [⟨0, 1, [[("a", "x")]]⟩, ⟨1, 3, [[("a", "y")]]⟩]).ambiguous = false →
        ∀ en ∈ [(⟨0, 1, [[("a", "x")]]⟩ : layerM.SpanEntry), ⟨1, 3, [[("a", "y")]]⟩],
          en.annos.length = 1)) ∧
    (layerM.check_span_consistency
        (layerM.Layer.mk ["a"] false [⟨0, 1, [[("a", "x")]]⟩, ⟨1, 3, [[("a", "y")]]⟩]) =
      (Except.ok (),
        layerM.Layer.mk ["a"] false [⟨0, 1, [[("a", "x")]]⟩, ⟨1, 3, [[("a", "y")]]⟩]) ∧
      layerM.check_span_consistency
        (layerM.check_span_consistency
          (layerM.Layer.mk ["a"] false
            [⟨0, 1, [[("a", "x")]]⟩, ⟨1, 3, [[("a", "y")]]⟩])).2 =
      (Except.ok (),
        layerM.Layer.mk ["a"] false [⟨0, 1, [[("a", "x")]]⟩, ⟨1, 3, [[("a", "y")]]⟩])) :=
  ⟨⟨by decide, by decide, by decide⟩,
   C7_check_consistency_idempotent
     (layerM.Layer.mk ["a"] false [⟨0, 1, [[("a", "x")]]⟩, ⟨1, 3, [[("a", "y")]]⟩])
     (by decide) (by decide) (by decide)⟩


namespace ser

/-- Python values as they matter to the serialisation boundary: atomic values
(represented by strings), lists and tuples of atomic values.  The importer's
coercion below acts on the top level only, so element nesting is irrelevant
here. -/
inductive Value where
  | str (s : String)
  | listV (xs : List String)
  | tupleV (xs : List String)
deriving DecidableEq, Repr

/-- Model of `list_to_tuple` (src/estnltk/converters/dict_importer.py lines
6-9): a list value becomes a tuple, any other value is returned unchanged
(top level only, no recursion). -/
def list_to_tuple : Value → Value
  | Value.listV xs => Value.tupleV xs
  | v => v

/-- One annotation record at the serialisation boundary: attribute names with
structured values. -/
abbrev SAnno := List (String × Value)

/-- The importer applies `list_to_tuple` to every attribute value it reads in
the parent and enveloping branches (`dict_importer.py` lines 33, 39, 46, 54). -/
def coerceAnno (a : SAnno) : SAnno :=
  a.map (fun kv => (kv.1, list_to_tuple kv.2))

def isListV : Value → Bool
  | Value.listV _ => true
  | _ => false

/-- An annotation covers the declared attributes exactly (spec §3), as in the
`layerM` model but over structured values. -/
def coversS (attrs : List String) (a : SAnno) : Prop :=
  (a.map Prod.fst).Perm attrs

instance : ∀ attrs a, Decidable (coversS attrs a) := fun attrs a => by
  unfold coversS; exact inferInstance

/-- A span entry of a layer as the importer rebuilds it: its payload — the
`(start, end)` location for elementary spans, the ordered child-location list
for enveloping spans — with the annotation records attached there. -/
structure GEntry (β : Type) where
  payload : β
  annos : List SAnno
deriving DecidableEq, Repr

/-- The `(start, end)` extent of a child-location list:
`(children[0].start, children[-1].end)` (0 on the empty list, which valid
layers exclude). -/
def extent (locs : List (Nat × Nat)) : Nat × Nat :=
  ((locs.head?.map Prod.fst).getD 0, (locs.getLast?.map Prod.snd).getD 0)

/-- Strict order of entries under a key function. -/
def gLt {β : Type} (key : β → Nat × Nat) (a b : GEntry β) : Prop :=
  layerM.locLt (key a.payload) (key b.payload)

instance {β : Type} (key : β → Nat × Nat) : DecidableRel (gLt key) := fun a b => by
  unfold gLt; exact inferInstance

/-- Absorb one annotation into an existing entry, deduplicating identical
annotations (the behaviour of the absent ambiguous `add_span`, pinned by
`test_add_span` as in the `layerM` model). -/
def mergeAnno {β : Type} (a : SAnno) (en : GEntry β) : GEntry β :=
  if a ∈ en.annos then en else { en with annos := en.annos ++ [a] }

/-- Modelled from the spec (§4.2): one `add_span` call of the absent
`estnltk.text.Layer`, as the importer's loops invoke it — one span object
carrying one annotation at a time.  A new `(start, end)` key is inserted at
its sorted position; an existing key absorbs the annotation on an ambiguous
layer and raises (None here) on an unambiguous one; the annotation must cover
the declared attributes. -/
def gAddAnno {β : Type} [DecidableEq β] (key : β → Nat × Nat) (amb : Bool)
    (attrs : List String) (p : β) (a : SAnno) (l : List (GEntry β)) :
    Option (List (GEntry β)) :=
  if ¬ coversS attrs a then none
  else if ∃ en ∈ l, key en.payload = key p then
    (if amb then
      some (l.map (fun en => if key en.payload = key p then mergeAnno a en else en))
    else none)
  else some (Sorting.insRel (gLt key) ⟨p, [a]⟩ l)

/-- Run the importer's add loop over a sequence of (payload, annotation)
pairs. -/
def foldPairs {β : Type} [DecidableEq β] (key : β → Nat × Nat) (amb : Bool)
    (attrs : List String) : List (β × SAnno) → List (GEntry β) →
    Option (List (GEntry β))
  | [], acc => some acc
  | pa :: rest, acc =>
      match gAddAnno key amb attrs pa.1 pa.2 acc with
      | none => none
      | some acc2 => foldPairs key amb attrs rest acc2

/-- The (payload, annotation) pairs of an entry list, in layer order. -/
def pairsOf {β : Type} (l : List (GEntry β)) : List (β × SAnno) :=
  (l.map (fun en => en.annos.map (fun a => (en.payload, a)))).flatten

/-- Index of the first occurrence of an element (the `_index_` an exporter
must write for a span of the base layer). -/
def idxOf {α : Type} [DecidableEq α] (x : α) : List α → Option Nat
  | [] => none
  | y :: ys => if y = x then some 0 else (idxOf x ys).map (· + 1)

/-- The same index as a total function (0 when absent; valid layers always
find their base span). -/
def idxD {α : Type} [DecidableEq α] (x : α) (l : List α) : Nat :=
  (idxOf x l).getD 0

/-- Map a fallible function over a list, failing when any element fails (the
shape of the importer's lookups: a missing layer or index raises). -/
def optMap {α β : Type} (f : α → Option β) : List α → Option (List β)
  | [] => some []
  | x :: xs =>
      match f x, optMap f xs with
      | some y, some ys => some (y :: ys)
      | _, _ => none

theorem idxOf_mem {α : Type} [DecidableEq α] {x : α} {l : List α}
    (h : x ∈ l) : idxOf x l = some (idxD x l) ∧ l.get? (idxD x l) = some x := by
  induction l with
  | nil => cases h
  | cons y ys ih =>
      by_cases hy : y = x
      · have h0 : idxOf x (y :: ys) = some 0 := by
          simp only [idxOf]
          rw [if_pos hy]
        have hD : idxD x (y :: ys) = 0 := by
          unfold idxD
          rw [h0]
          rfl
        constructor
        · rw [h0, hD]
        · rw [hD, hy]
          rfl
      · have hmem : x ∈ ys := by
          rcases List.mem_cons.mp h with h2 | h2
          · exact absurd h2.symm hy
          · exact h2
        rcases ih hmem with ⟨h1, h2⟩
        have hidx : idxOf x (y :: ys) = some (idxD x ys + 1) := by
          simp only [idxOf]
          rw [if_neg hy, h1]
          rfl
        have hD : idxD x (y :: ys) = idxD x ys + 1 := by
          unfold idxD
          rw [hidx]
          rfl
        refine ⟨by rw [hidx, hD], ?_⟩
        rw [hD]
        exact h2

theorem optMap_eq_some {α β : Type} (f : α → Option β) (g : α → β)
    (l : List α) (h : ∀ x ∈ l, f x = some (g x)) :
    optMap f l = some (l.map g) := by
  induction l with
  | nil => rfl
  | cons x xs ih =>
      unfold optMap
      rw [h x (List.mem_cons_self _ _), ih (fun y hy => h y (List.mem_cons_of_mem _ hy))]
      rfl

end ser

namespace ser

theorem gLt_asymm {β : Type} {key : β → Nat × Nat} {a b : GEntry β}
    (h : gLt key a b) : ¬ gLt key b a := by
  intro h2
  exact layerM.locLt_irrefl (key a.payload) (layerM.locLt_trans h h2)

theorem insRel_append_of_lt {β : Type} (key : β → Nat × Nat) (x : GEntry β)
    (acc : List (GEntry β)) (h : ∀ y ∈ acc, gLt key y x) :
    Sorting.insRel (gLt key) x acc = acc ++ [x] := by
  induction acc with
  | nil => rfl
  | cons y ys ih =>
      unfold Sorting.insRel
      rw [if_neg (gLt_asymm (h y (List.mem_cons_self _ _)))]
      rw [ih (fun z hz => h z (List.mem_cons_of_mem _ hz))]
      rfl

theorem map_merge_last {β : Type} [DecidableEq β] (key : β → Nat × Nat)
    (a : SAnno) (p : β) (done : List (GEntry β)) (as : List SAnno)
    (h : ∀ y ∈ done, key y.payload ≠ key p) :
    (done ++ [GEntry.mk p as]).map
        (fun en => if key en.payload = key p then mergeAnno a en else en) =
      done ++ [mergeAnno a (GEntry.mk p as)] := by
  rw [List.map_append]
  congr 1
  · have h2 : done.map (fun en => if key en.payload = key p then mergeAnno a en else en)
        = done.map id := List.map_congr_left (fun y hy => by rw [if_neg (h y hy)]; rfl)
    rw [h2, List.map_id]
  · rw [List.map_cons, List.map_nil]
    congr 1
    exact if_pos rfl

theorem foldPairs_more {β : Type} [DecidableEq β] (key : β → Nat × Nat)
    (attrs : List String) (p : β) (rest processed : List SAnno)
    (acc : List (GEntry β))
    (hdisj : ∀ a ∈ rest, a ∉ processed)
    (hnd : rest.Nodup)
    (hcov : ∀ a ∈ rest, coversS attrs a)
    (hkey : ∀ y ∈ acc, key y.payload ≠ key p) :
    foldPairs key true attrs (rest.map (fun a => (p, a))) (acc ++ [⟨p, processed⟩]) =
      some (acc ++ [⟨p, processed ++ rest⟩]) := by
  induction rest generalizing processed with
  | nil => simp [foldPairs]
  | cons a2 rest2 ih =>
      have hex : ∃ en ∈ acc ++ [GEntry.mk p processed], key en.payload = key p :=
        ⟨GEntry.mk p processed, List.mem_append_right _ (List.mem_cons_self _ _), rfl⟩
      have hstep : gAddAnno key true attrs p a2 (acc ++ [⟨p, processed⟩]) =
          some (acc ++ [⟨p, processed ++ [a2]⟩]) := by
        unfold gAddAnno
        rw [if_neg (not_not_intro (hcov a2 (List.mem_cons_self _ _)))]
        rw [if_pos hex, if_pos rfl]
        rw [map_merge_last key a2 p acc processed hkey]
        unfold mergeAnno
        rw [if_neg (hdisj a2 (List.mem_cons_self _ _))]
      have hred : foldPairs key true attrs
          ((a2 :: rest2).map (fun a => (p, a))) (acc ++ [⟨p, processed⟩]) =
          foldPairs key true attrs (rest2.map (fun a => (p, a)))
            (acc ++ [⟨p, processed ++ [a2]⟩]) := by
        rw [List.map_cons]
        simp only [foldPairs]
        rw [hstep]
      rw [hred]
      have ih2 := ih (processed ++ [a2])
        (fun a ha hmem => by
          rcases List.mem_append.mp hmem with hmem | hmem
          · exact hdisj a (List.mem_cons_of_mem _ ha) hmem
          · rw [List.mem_singleton.mp hmem] at ha
            exact (List.nodup_cons.mp hnd).1 ha)
        (List.nodup_cons.mp hnd).2
        (fun a ha => hcov a (List.mem_cons_of_mem _ ha))
      rw [ih2]
      simp

theorem foldPairs_one_entry {β : Type} [DecidableEq β] (key : β → Nat × Nat)
    (amb : Bool) (attrs : List String) (p : β) (as : List SAnno)
    (acc : List (GEntry β))
    (hlt : ∀ y ∈ acc, layerM.locLt (key y.payload) (key p))
    (hne : as ≠ []) (hnd : as.Nodup)
    (hcov : ∀ a ∈ as, coversS attrs a)
    (hone : amb = false → as.length = 1) :
    foldPairs key amb attrs (as.map (fun a => (p, a))) acc =
      some (acc ++ [⟨p, as⟩]) := by
  match as, hne with
  | a :: rest, _ =>
    have hkey : ∀ y ∈ acc, key y.payload ≠ key p := by
      intro y hy hEq
      have h2 := hlt y hy
      rw [hEq] at h2
      exact layerM.locLt_irrefl _ h2
    have hnex : ¬ ∃ en ∈ acc, key en.payload = key p := by
      intro hEx
      rcases hEx with ⟨en, hen, hEq⟩
      exact hkey en hen hEq
    have hstep : gAddAnno key amb attrs p a acc = some (acc ++ [⟨p, [a]⟩]) := by
      unfold gAddAnno
      rw [if_neg (not_not_intro (hcov a (List.mem_cons_self _ _)))]
      rw [if_neg hnex]
      rw [insRel_append_of_lt key ⟨p, [a]⟩ acc (fun y hy => hlt y hy)]
    have hred : foldPairs key amb attrs ((a :: rest).map (fun x => (p, x))) acc =
        foldPairs key amb attrs (rest.map (fun x => (p, x))) (acc ++ [⟨p, [a]⟩]) := by
      rw [List.map_cons]
      simp only [foldPairs]
      rw [hstep]
    rw [hred]
    match rest, hnd, hcov with
    | [], _, _ => simp [foldPairs]
    | b :: rest2, hnd, hcov =>
      have hamb : amb = true := by
        cases amb with
        | true => rfl
        | false => simpa using hone rfl
      rw [hamb]
      have h2 := foldPairs_more key attrs p (b :: rest2) [a] acc
        (fun x hx hmem => by
          rw [List.mem_singleton.mp hmem] at hx
          exact (List.nodup_cons.mp hnd).1 hx)
        (List.nodup_cons.mp hnd).2
        (fun x hx => hcov x (List.mem_cons_of_mem _ hx))
        hkey
      rw [h2]
      rfl

theorem foldPairs_append {β : Type} [DecidableEq β] (key : β → Nat × Nat)
    (amb : Bool) (attrs : List String) (xs ys : List (β × SAnno))
    (acc : List (GEntry β)) :
    foldPairs key amb attrs (xs ++ ys) acc =
      match foldPairs key amb attrs xs acc with
      | none => none
      | some acc2 => foldPairs key amb attrs ys acc2 := by
  induction xs generalizing acc with
  | nil => rfl
  | cons pa xs ih =>
      rw [List.cons_append]
      simp only [foldPairs]
      cases hg : gAddAnno key amb attrs pa.1 pa.2 acc with
      | none => rfl
      | some acc2 => exact ih acc2

theorem foldPairs_entries {β : Type} [DecidableEq β] (key : β → Nat × Nat)
    (amb : Bool) (attrs : List String) (ents acc : List (GEntry β))
    (hsort : ents.Pairwise (gLt key))
    (hacc : ∀ y ∈ acc, ∀ x ∈ ents, gLt key y x)
    (hval : ∀ en ∈ ents, en.annos ≠ [] ∧ en.annos.Nodup ∧
      (∀ a ∈ en.annos, coversS attrs a) ∧ (amb = false → en.annos.length = 1)) :
    foldPairs key amb attrs (pairsOf ents) acc = some (acc ++ ents) := by
  induction ents generalizing acc with
  | nil => simp [pairsOf, foldPairs]
  | cons x rest ih =>
      have hp : pairsOf (x :: rest) =
          (x.annos.map (fun a => (x.payload, a))) ++ pairsOf rest := by
        simp [pairsOf]
      rw [hp, foldPairs_append]
      rcases hval x (List.mem_cons_self _ _) with ⟨h1, h2, h3, h4⟩
      rw [foldPairs_one_entry key amb attrs x.payload x.annos acc
        (fun y hy => hacc y hy x (List.mem_cons_self _ _)) h1 h2 h3 h4]
      show foldPairs key amb attrs (pairsOf rest) (acc ++ [⟨x.payload, x.annos⟩]) =
        some (acc ++ x :: rest)
      have ih2 := ih (acc ++ [x])
        (List.pairwise_cons.mp hsort).2
        (fun y hy z hz => by
          rcases List.mem_append.mp hy with hy | hy
          · exact hacc y hy z (List.mem_cons_of_mem _ hz)
          · rw [List.mem_singleton.mp hy]
            exact (List.pairwise_cons.mp hsort).1 z hz)
        (fun en hen => hval en (List.mem_cons_of_mem _ hen))
      rw [ih2]
      simp

end ser

namespace ser

/-- Flat entries: elementary spans, the payload is the `(start, end)`
location. -/
abbrev FEntry := GEntry (Nat × Nat)

/-- Composite entries: enveloping spans, the payload is the ordered list of
the child spans' locations. -/
abbrev CEntry := GEntry (List (Nat × Nat))

/-- The key of a flat entry is its location itself. -/
def flatKey : Nat × Nat → Nat × Nat := id

/-- The span entries of a layer: flat for independent and parent-attached
layers, composite for enveloping layers. -/
inductive Entries where
  | flatE (l : List FEntry)
  | compE (l : List CEntry)
deriving DecidableEq, Repr

/-- A layer as the two converters see it: the constructor fields
`_dict_to_layer` passes to `Layer(...)` plus the `_base` field it assigns
(dict_importer.py lines 13-20). -/
structure SerLayer where
  name : String
  attributes : List String
  parent : Option String
  enveloping : Option String
  base : String
  ambiguous : Bool
  entries : Entries
deriving DecidableEq, Repr

/-- A span record of a parent-attached layer: the `_index_` reference into
the base layer plus the attribute values (dict_importer.py lines 29-39). -/
structure PRec where
  idx : Nat
  attrs : SAnno
deriving DecidableEq, Repr

/-- A span record of an enveloping layer: `_index_` is the list of indices of
the child spans in the enveloped layer (dict_importer.py lines 43-55). -/
structure ERec where
  idxs : List Nat
  attrs : SAnno
deriving DecidableEq, Repr

/-- A span record of an independent layer: start/end with the attribute
values (consumed by `from_records`, dict_importer.py line 57). -/
structure RRec where
  start : Nat
  stop : Nat
  attrs : SAnno
deriving DecidableEq, Repr

/-- The `spans` payload of a layer record; ambiguous layers carry one list of
records per location, unambiguous layers a flat record list. -/
inductive RecSpans where
  | parentAmb (recs : List (List PRec))
  | parentOne (recs : List PRec)
  | envAmb (recs : List (List ERec))
  | envOne (recs : List ERec)
  | indepAmb (recs : List (List RRec))
  | indepOne (recs : List RRec)
deriving DecidableEq, Repr

/-- The structural record (the `layer_dict`): exactly the keys
`_dict_to_layer` reads — `name`, `attributes`, `parent`, `enveloping`,
`ambiguous`, `_base` and `spans`. -/
structure LayerRec where
  name : String
  attributes : List String
  parent : Option String
  enveloping : Option String
  base : String
  ambiguous : Bool
  spans : RecSpans
deriving DecidableEq, Repr

/-- The layer context both converters run in (`text.layers`, updated with
`detached_layers`), reduced to what the importer reads from a base layer:
its span locations in order, accessed by name and position. -/
def Ctx := String → Option (List (Nat × Nat))

def mkRec (L : SerLayer) (spans : RecSpans) : LayerRec :=
  ⟨L.name, L.attributes, L.parent, L.enveloping, L.base, L.ambiguous, spans⟩

/-- Modelled from the spec: `layer_to_dict` (dict_exporter.py lines 13-14)
only delegates to `estnltk.converters.serialisation_modules.layer_dict_converter`,
which is not in the source tree, so the record schema an exporter must emit
is reconstructed from the fields `_dict_to_layer` (which is in the source
tree) consumes: parent and enveloping spans become `_index_` references into
the base layer, independent spans become start/end records, nested per
location exactly when the layer is ambiguous.  Attribute values are written
unchanged.  A layer whose topology fields clash with its entry kind, whose
unambiguous entry holds more than one annotation, or whose span is absent
from its base layer has no record (`none`). -/
def layer_to_dict (ctx : Ctx) (L : SerLayer) : Option LayerRec :=
  match L.parent, L.enveloping, L.entries with
  | some _, _, Entries.flatE l =>
      (match ctx L.base with
      | none => none
      | some plocs =>
          if L.ambiguous then
            (optMap (fun en =>
                (idxOf en.payload plocs).map
                  (fun i => en.annos.map (fun a => PRec.mk i a))) l).map
              (fun recs => mkRec L (RecSpans.parentAmb recs))
          else
            (optMap (fun en =>
                match en.annos with
                | [a] => (idxOf en.payload plocs).map (fun i => PRec.mk i a)
                | _ => none) l).map
              (fun recs => mkRec L (RecSpans.parentOne recs)))
  | none, some ename, Entries.compE l =>
      (match ctx ename with
      | none => none
      | some elocs =>
          if L.ambiguous then
            (optMap (fun en =>
                (optMap (fun c => idxOf c elocs) en.payload).map
                  (fun is => en.annos.map (fun a => ERec.mk is a))) l).map
              (fun recs => mkRec L (RecSpans.envAmb recs))
          else
            (optMap (fun en =>
                match en.annos with
                | [a] => (optMap (fun c => idxOf c elocs) en.payload).map
                    (fun is => ERec.mk is a)
                | _ => none) l).map
              (fun recs => mkRec L (RecSpans.envOne recs)))
  | none, none, Entries.flatE l =>
      if L.ambiguous then
        some (mkRec L (RecSpans.indepAmb
          (l.map (fun en =>
            en.annos.map (fun a => RRec.mk en.payload.1 en.payload.2 a)))))
      else
        (optMap (fun en =>
            match en.annos with
            | [a] => some (RRec.mk en.payload.1 en.payload.2 a)
            | _ => none) l).map
          (fun recs => mkRec L (RecSpans.indepOne recs))
  | _, _, _ => none

def mkLayer (r : LayerRec) (ents : Entries) : SerLayer :=
  ⟨r.name, r.attributes, r.parent, r.enveloping, r.base, r.ambiguous, ents⟩

/-- Model of `_dict_to_layer` (src/estnltk/converters/dict_importer.py lines
12-58), the importer that is in the source tree.  Its structure is mirrored
faithfully: the `parent` field is tested first (so a record with both
`parent` and `enveloping` set silently takes the parent branch), span
boundaries of a parent-attached layer are read from the context layer named
`_base` at each record's `_index_`, child spans of an enveloping layer from
the context layer named by `enveloping` at the `_index_` list, every
attribute value read in those two branches passes through `list_to_tuple`,
and an independent layer is rebuilt by `from_records`.  No invariant is
re-validated; the only failure points are the code's own lookup errors
(missing context layer, index out of range, record shape mismatch) and the
duplicate-span error inside `add_span`.  The absent leaf operations —
`Layer.add_span`, `Span.mark`, `EnvelopingSpan`, `from_records`
(`estnltk.text`, not in the source tree) — are modelled from the spec (§4.2)
as the one-annotation-at-a-time sorted insertion `gAddAnno`. -/
def dict_to_layer (ctx : Ctx) (r : LayerRec) : Option SerLayer :=
  match r.parent with
  | some _ =>
      (match ctx r.base with
      | none => none
      | some plocs =>
          match r.ambiguous, r.spans with
          | true, RecSpans.parentAmb recs =>
              (optMap (fun rec => optMap (fun rr : PRec =>
                  (plocs.get? rr.idx).map
                    (fun loc => (loc, coerceAnno rr.attrs))) rec) recs).bind
                (fun decoded =>
                  (foldPairs flatKey true r.attributes decoded.flatten []).map
                    (fun ents => mkLayer r (Entries.flatE ents)))
          | false, RecSpans.parentOne recs =>
              (optMap (fun rr : PRec =>
                  (plocs.get? rr.idx).map
                    (fun loc => (loc, coerceAnno rr.attrs))) recs).bind
                (fun pairs =>
                  (foldPairs flatKey false r.attributes pairs []).map
                    (fun ents => mkLayer r (Entries.flatE ents)))
          | _, _ => none)
  | none =>
      match r.enveloping with
      | some ename =>
          (match ctx ename with
          | none => none
          | some elocs =>
              match r.ambiguous, r.spans with
              | true, RecSpans.envAmb recs =>
                  (optMap (fun rec => optMap (fun rr : ERec =>
                      (optMap (fun i => elocs.get? i) rr.idxs).map
                        (fun cs => (cs, coerceAnno rr.attrs))) rec) recs).bind
                    (fun decoded =>
                      (foldPairs extent true r.attributes decoded.flatten []).map
                        (fun ents => mkLayer r (Entries.compE ents)))
              | false, RecSpans.envOne recs =>
                  (optMap (fun rr : ERec =>
                      (optMap (fun i => elocs.get? i) rr.idxs).map
                        (fun cs => (cs, coerceAnno rr.attrs))) recs).bind
                    (fun pairs =>
                      (foldPairs extent false r.attributes pairs []).map
                        (fun ents => mkLayer r (Entries.compE ents)))
              | _, _ => none)
      | none =>
          match r.ambiguous, r.spans with
          | true, RecSpans.indepAmb recs =>
              (foldPairs flatKey true r.attributes
                  ((recs.map (fun rec =>
                    rec.map (fun rr => ((rr.start, rr.stop), rr.attrs)))).flatten) []).map
                (fun ents => mkLayer r (Entries.flatE ents))
          | false, RecSpans.indepOne recs =>
              (foldPairs flatKey false r.attributes
                  (recs.map (fun rr => ((rr.start, rr.stop), rr.attrs))) []).map
                (fun ents => mkLayer r (Entries.flatE ents))
          | _, _ => none

end ser

namespace ser

/-- Entry well-formedness shared by all topologies (spec §3): at least one
annotation, no duplicated annotations at one location, each annotation
covering the declared attributes, a single annotation when unambiguous. -/
def entryOk {β : Type} (amb : Bool) (attrs : List String) (en : GEntry β) : Prop :=
  en.annos ≠ [] ∧ en.annos.Nodup ∧ (∀ a ∈ en.annos, coversS attrs a) ∧
    (amb = false → en.annos.length = 1)

/-- A valid layer over a context: exactly one of parent XOR enveloping XOR
neither (spec §3) with the matching entry kind, entries strictly increasing
by their key, well-formed, and — for the dependent topologies — every span
boundary present in the context's base layer.  The spec's fourth topology,
fragmented, has no representation in the record schema `_dict_to_layer`
consumes (no field or branch exists for it). -/
def ValidInCtx (ctx : Ctx) (L : SerLayer) : Prop :=
  match L.parent, L.enveloping, L.entries with
  | some _, none, Entries.flatE l =>
      l.Pairwise (gLt flatKey) ∧ (∀ en ∈ l, entryOk L.ambiguous L.attributes en) ∧
      ∃ plocs, ctx L.base = some plocs ∧ ∀ en ∈ l, en.payload ∈ plocs
  | none, some ename, Entries.compE l =>
      l.Pairwise (gLt extent) ∧ (∀ en ∈ l, entryOk L.ambiguous L.attributes en) ∧
      (∀ en ∈ l, en.payload ≠ []) ∧
      ∃ elocs, ctx ename = some elocs ∧ ∀ en ∈ l, ∀ c ∈ en.payload, c ∈ elocs
  | none, none, Entries.flatE l =>
      l.Pairwise (gLt flatKey) ∧ ∀ en ∈ l, entryOk L.ambiguous L.attributes en
  | _, _, _ => False

/-- No attribute value of the annotation is a list (so the importer's
`list_to_tuple` coercion is the identity on it). -/
def annoNoList (a : SAnno) : Prop := ∀ kv ∈ a, isListV kv.2 = false

/-- No attribute value anywhere in the entry list is a list. -/
def entsNoList : Entries → Prop
  | Entries.flatE l => ∀ en ∈ l, ∀ a ∈ en.annos, annoNoList a
  | Entries.compE l => ∀ en ∈ l, ∀ a ∈ en.annos, annoNoList a

/-- No attribute value anywhere in the layer is a list. -/
def NoListValues (L : SerLayer) : Prop := entsNoList L.entries

theorem list_to_tuple_eq (v : Value) (h : isListV v = false) :
    list_to_tuple v = v := by
  cases v with
  | str s => rfl
  | listV xs => simp [isListV] at h
  | tupleV xs => rfl

theorem coerceAnno_eq (a : SAnno) (h : annoNoList a) : coerceAnno a = a := by
  unfold coerceAnno
  have h2 : a.map (fun kv => (kv.1, list_to_tuple kv.2)) = a.map id :=
    List.map_congr_left (fun kv hkv => by
      rw [list_to_tuple_eq kv.2 (h kv hkv)]
      rfl)
  rw [h2, List.map_id]

theorem optMap_map {α β γ : Type} (f : β → Option γ) (g : α → β) (l : List α) :
    optMap f (l.map g) = optMap (fun x => f (g x)) l := by
  induction l with
  | nil => rfl
  | cons x xs ih =>
      simp only [List.map_cons, optMap]
      rw [ih]

theorem pairsOf_singletons {β : Type} (l : List (GEntry β))
    (h : ∀ en ∈ l, en.annos.length = 1) :
    pairsOf l = l.map (fun en => (en.payload, en.annos.headD [])) := by
  induction l with
  | nil => rfl
  | cons x rest ih =>
      have hp : pairsOf (x :: rest) =
          (x.annos.map (fun a => (x.payload, a))) ++ pairsOf rest := by
        simp [pairsOf]
      rw [hp, ih (fun en hen => h en (List.mem_cons_of_mem _ hen))]
      rcases List.length_eq_one.mp (h x (List.mem_cons_self _ _)) with ⟨a, ha⟩
      simp only [List.map_cons, List.map_nil, List.cons_append, List.nil_append, ha]
      rfl

theorem decodeP (plocs : List (Nat × Nat)) (i : Nat) (loc : Nat × Nat)
    (hget : plocs.get? i = some loc) (as : List SAnno)
    (hnl : ∀ a ∈ as, annoNoList a) :
    optMap (fun rr : PRec =>
        (plocs.get? rr.idx).map (fun loc2 => (loc2, coerceAnno rr.attrs)))
      (as.map (fun a => PRec.mk i a)) = some (as.map (fun a => (loc, a))) := by
  induction as with
  | nil => rfl
  | cons a as ih =>
      simp only [List.map_cons, optMap]
      rw [hget, ih (fun x hx => hnl x (List.mem_cons_of_mem _ hx))]
      simp only [Option.map_some']
      rw [coerceAnno_eq a (hnl a (List.mem_cons_self _ _))]

theorem decodeChildren (elocs : List (Nat × Nat)) (cs : List (Nat × Nat))
    (h : ∀ c ∈ cs, c ∈ elocs) :
    optMap (fun i => elocs.get? i) (cs.map (fun c => idxD c elocs)) = some cs := by
  induction cs with
  | nil => rfl
  | cons c cs ih =>
      simp only [List.map_cons, optMap]
      rw [(idxOf_mem (h c (List.mem_cons_self _ _))).2,
          ih (fun x hx => h x (List.mem_cons_of_mem _ hx))]

theorem decodeE (elocs : List (Nat × Nat)) (cs : List (Nat × Nat))
    (hcs : ∀ c ∈ cs, c ∈ elocs) (as : List SAnno)
    (hnl : ∀ a ∈ as, annoNoList a) :
    optMap (fun rr : ERec =>
        (optMap (fun i => elocs.get? i) rr.idxs).map
          (fun cs2 => (cs2, coerceAnno rr.attrs)))
      (as.map (fun a => ERec.mk (cs.map (fun c => idxD c elocs)) a)) =
      some (as.map (fun a => (cs, a))) := by
  induction as with
  | nil => rfl
  | cons a as ih =>
      simp only [List.map_cons, optMap]
      rw [decodeChildren elocs cs hcs, ih (fun x hx => hnl x (List.mem_cons_of_mem _ hx))]
      simp only [Option.map_some']
      rw [coerceAnno_eq a (hnl a (List.mem_cons_self _ _))]

end ser

namespace ser

theorem round_trip_parent (ctx : Ctx) (nm p base : String) (attrs : List String)
    (amb : Bool) (l : List FEntry) (plocs : List (Nat × Nat))
    (hctx : ctx base = some plocs)
    (hsort : l.Pairwise (gLt flatKey))
    (hok : ∀ en ∈ l, entryOk amb attrs en)
    (hmem : ∀ en ∈ l, en.payload ∈ plocs)
    (hnl : ∀ en ∈ l, ∀ a ∈ en.annos, annoNoList a) :
    ∃ r, layer_to_dict ctx ⟨nm, attrs, some p, none, base, amb, Entries.flatE l⟩
        = some r ∧
      dict_to_layer ctx r = some ⟨nm, attrs, some p, none, base, amb, Entries.flatE l⟩ := by
  have hfold : foldPairs flatKey amb attrs (pairsOf l) [] = some l := by
    have h2 := foldPairs_entries flatKey amb attrs l [] hsort
      (by intro y hy; cases hy) (fun en hen => hok en hen)
    simpa using h2
  cases amb with
  | true =>
      refine ⟨mkRec ⟨nm, attrs, some p, none, base, true, Entries.flatE l⟩
        (RecSpans.parentAmb (l.map (fun en =>
          en.annos.map (fun a => PRec.mk (idxD en.payload plocs) a)))), ?_, ?_⟩
      · have hopt : optMap (fun en =>
            (idxOf en.payload plocs).map
              (fun i => en.annos.map (fun a => PRec.mk i a))) l =
            some (l.map (fun en =>
              en.annos.map (fun a => PRec.mk (idxD en.payload plocs) a))) :=
          optMap_eq_some _ _ l (fun en hen => by
            rw [(idxOf_mem (hmem en hen)).1]
            rfl)
        simp only [layer_to_dict, hctx, hopt]
        rfl
      · have hdec : optMap (fun rec => optMap (fun rr : PRec =>
              (plocs.get? rr.idx).map (fun loc => (loc, coerceAnno rr.attrs))) rec)
            (l.map (fun en =>
              en.annos.map (fun a => PRec.mk (idxD en.payload plocs) a))) =
            some (l.map (fun en => en.annos.map (fun a => (en.payload, a)))) := by
          rw [optMap_map]
          exact optMap_eq_some _ _ l (fun en hen =>
            decodeP plocs (idxD en.payload plocs) en.payload
              (idxOf_mem (hmem en hen)).2 en.annos (hnl en hen))
        simp only [dict_to_layer, mkRec, hctx, hdec]
        have hjoin : (l.map (fun en =>
            en.annos.map (fun a => (en.payload, a)))).flatten = pairsOf l := rfl
        simp only [Option.some_bind']
        rw [hjoin, hfold]
        rfl
  | false =>
      have hone : ∀ en ∈ l, ∃ a, en.annos = [a] := fun en hen =>
        List.length_eq_one.mp ((hok en hen).2.2.2 rfl)
      have hlen : ∀ en ∈ l, en.annos.length = 1 := fun en hen =>
        (hok en hen).2.2.2 rfl
      refine ⟨mkRec ⟨nm, attrs, some p, none, base, false, Entries.flatE l⟩
        (RecSpans.parentOne (l.map (fun en =>
          PRec.mk (idxD en.payload plocs) (en.annos.headD [])))), ?_, ?_⟩
      · have hopt : optMap (fun en =>
            match en.annos with
            | [a] => (idxOf en.payload plocs).map (fun i => PRec.mk i a)
            | _ => none) l =
            some (l.map (fun en =>
              PRec.mk (idxD en.payload plocs) (en.annos.headD []))) :=
          optMap_eq_some _ _ l (fun en hen => by
            rcases hone en hen with ⟨a, ha⟩
            rw [ha]
            show (idxOf en.payload plocs).map (fun i => PRec.mk i a) = _
            rw [(idxOf_mem (hmem en hen)).1]
            rfl)
        simp only [layer_to_dict, hctx, hopt]
        rfl
      · have hdec : optMap (fun rr : PRec =>
              (plocs.get? rr.idx).map (fun loc => (loc, coerceAnno rr.attrs)))
            (l.map (fun en =>
              PRec.mk (idxD en.payload plocs) (en.annos.headD []))) =
            some (l.map (fun en => (en.payload, en.annos.headD []))) := by
          rw [optMap_map]
          exact optMap_eq_some _ _ l (fun en hen => by
            rcases hone en hen with ⟨a, ha⟩
            have ha2 : en.annos.headD [] = a := by rw [ha]; rfl
            show (plocs.get? (idxD en.payload plocs)).map
                (fun loc => (loc, coerceAnno (en.annos.headD []))) =
              some (en.payload, en.annos.headD [])
            rw [(idxOf_mem (hmem en hen)).2, ha2]
            simp only [Option.map_some']
            rw [coerceAnno_eq a
              (hnl en hen a (by rw [ha]; exact List.mem_cons_self _ _))])
        simp only [dict_to_layer, mkRec, hctx, hdec]
        simp only [Option.some_bind']
        rw [← pairsOf_singletons l hlen, hfold]
        rfl

theorem round_trip_env (ctx : Ctx) (nm ename base : String) (attrs : List String)
    (amb : Bool) (l : List CEntry) (elocs : List (Nat × Nat))
    (hctx : ctx ename = some elocs)
    (hsort : l.Pairwise (gLt extent))
    (hok : ∀ en ∈ l, entryOk amb attrs en)
    (hmem : ∀ en ∈ l, ∀ c ∈ en.payload, c ∈ elocs)
    (hnl : ∀ en ∈ l, ∀ a ∈ en.annos, annoNoList a) :
    ∃ r, layer_to_dict ctx ⟨nm, attrs, none, some ename, base, amb, Entries.compE l⟩
        = some r ∧
      dict_to_layer ctx r
        = some ⟨nm, attrs, none, some ename, base, amb, Entries.compE l⟩ := by
  have hfold : foldPairs extent amb attrs (pairsOf l) [] = some l := by
    have h2 := foldPairs_entries extent amb attrs l [] hsort
      (by intro y hy; cases hy) (fun en hen => hok en hen)
    simpa using h2
  have hoptC : ∀ en ∈ l, optMap (fun c => idxOf c elocs) en.payload =
      some (en.payload.map (fun c => idxD c elocs)) := fun en hen =>
    optMap_eq_some _ _ en.payload (fun c hc => (idxOf_mem (hmem en hen c hc)).1)
  cases amb with
  | true =>
      refine ⟨mkRec ⟨nm, attrs, none, some ename, base, true, Entries.compE l⟩
        (RecSpans.envAmb (l.map (fun en =>
          en.annos.map (fun a =>
            ERec.mk (en.payload.map (fun c => idxD c elocs)) a)))), ?_, ?_⟩
      · have hopt : optMap (fun en =>
            (optMap (fun c => idxOf c elocs) en.payload).map
              (fun is => en.annos.map (fun a => ERec.mk is a))) l =
            some (l.map (fun en =>
              en.annos.map (fun a =>
                ERec.mk (en.payload.map (fun c => idxD c elocs)) a))) :=
          optMap_eq_some _ _ l (fun en hen => by
            rw [hoptC en hen]
            rfl)
        simp only [layer_to_dict, hctx, hopt]
        rfl
      · have hdec : optMap (fun rec => optMap (fun rr : ERec =>
              (optMap (fun i => elocs.get? i) rr.idxs).map
                (fun cs => (cs, coerceAnno rr.attrs))) rec)
            (l.map (fun en =>
              en.annos.map (fun a =>
                ERec.mk (en.payload.map (fun c => idxD c elocs)) a))) =
            some (l.map (fun en => en.annos.map (fun a => (en.payload, a)))) := by
          rw [optMap_map]
          exact optMap_eq_some _ _ l (fun en hen =>
            decodeE elocs en.payload (hmem en hen) en.annos (hnl en hen))
        simp only [dict_to_layer, mkRec, hctx, hdec]
        have hjoin : (l.map (fun en =>
            en.annos.map (fun a => (en.payload, a)))).flatten = pairsOf l := rfl
        simp only [Option.some_bind']
        rw [hjoin, hfold]
        rfl
  | false =>
      have hone : ∀ en ∈ l, ∃ a, en.annos = [a] := fun en hen =>
        List.length_eq_one.mp ((hok en hen).2.2.2 rfl)
      have hlen : ∀ en ∈ l, en.annos.length = 1 := fun en hen =>
        (hok en hen).2.2.2 rfl
      refine ⟨mkRec ⟨nm, attrs, none, some ename, base, false, Entries.compE l⟩
        (RecSpans.envOne (l.map (fun en =>
          ERec.mk (en.payload.map (fun c => idxD c elocs)) (en.annos.headD [])))),
        ?_, ?_⟩
      · have hopt : optMap (fun en =>
            match en.annos with
            | [a] => (optMap (fun c => idxOf c elocs) en.payload).map
                (fun is => ERec.mk is a)
            | _ => none) l =
            some (l.map (fun en =>
              ERec.mk (en.payload.map (fun c => idxD c elocs))
                (en.annos.headD []))) :=
          optMap_eq_some _ _ l (fun en hen => by
            rcases hone en hen with ⟨a, ha⟩
            rw [ha]
            show (optMap (fun c => idxOf c elocs) en.payload).map
              (fun is => ERec.mk is a) = _
            rw [hoptC en hen]
            rfl)
        simp only [layer_to_dict, hctx, hopt]
        rfl
      · have hdec : optMap (fun rr : ERec =>
              (optMap (fun i => elocs.get? i) rr.idxs).map
                (fun cs => (cs, coerceAnno rr.attrs)))
            (l.map (fun en =>
              ERec.mk (en.payload.map (fun c => idxD c elocs))
                (en.annos.headD []))) =
            some (l.map (fun en => (en.payload, en.annos.headD []))) := by
          rw [optMap_map]
          exact optMap_eq_some _ _ l (fun en hen => by
            rcases hone en hen with ⟨a, ha⟩
            have ha2 : en.annos.headD [] = a := by rw [ha]; rfl
            show (optMap (fun i => elocs.get? i)
                (en.payload.map (fun c => idxD c elocs))).map
                (fun cs => (cs, coerceAnno (en.annos.headD []))) =
              some (en.payload, en.annos.headD [])
            rw [decodeChildren elocs en.payload (hmem en hen), ha2]
            simp only [Option.map_some']
            rw [coerceAnno_eq a
              (hnl en hen a (by rw [ha]; exact List.mem_cons_self _ _))])
        simp only [dict_to_layer, mkRec, hctx, hdec]
        simp only [Option.some_bind']
        rw [← pairsOf_singletons l hlen, hfold]
        rfl

theorem round_trip_indep (ctx : Ctx) (nm base : String) (attrs : List String)
    (amb : Bool) (l : List FEntry)
    (hsort : l.Pairwise (gLt flatKey))
    (hok : ∀ en ∈ l, entryOk amb attrs en) :
    ∃ r, layer_to_dict ctx ⟨nm, attrs, none, none, base, amb, Entries.flatE l⟩
        = some r ∧
      dict_to_layer ctx r
        = some ⟨nm, attrs, none, none, base, amb, Entries.flatE l⟩ := by
  have hfold : foldPairs flatKey amb attrs (pairsOf l) [] = some l := by
    have h2 := foldPairs_entries flatKey amb attrs l [] hsort
      (by intro y hy; cases hy) (fun en hen => hok en hen)
    simpa using h2
  cases amb with
  | true =>
      refine ⟨mkRec ⟨nm, attrs, none, none, base, true, Entries.flatE l⟩
        (RecSpans.indepAmb (l.map (fun en =>
          en.annos.map (fun a => RRec.mk en.payload.1 en.payload.2 a)))), ?_, ?_⟩
      · simp only [layer_to_dict]
        rfl
      · have hdec : (l.map (fun en =>
            en.annos.map (fun a => RRec.mk en.payload.1 en.payload.2 a))).map
              (fun rec => rec.map (fun rr => ((RRec.start rr, rr.stop), rr.attrs))) =
            l.map (fun en => en.annos.map (fun a => (en.payload, a))) := by
          rw [List.map_map]
          exact List.map_congr_left (fun en _ => by
            show (en.annos.map
                (fun a => RRec.mk en.payload.1 en.payload.2 a)).map
                (fun rr => ((RRec.start rr, rr.stop), rr.attrs)) =
              en.annos.map (fun a => (en.payload, a))
            rw [List.map_map]
            exact List.map_congr_left (fun a _ => rfl))
        simp only [dict_to_layer, mkRec, hdec]
        have hjoin : (l.map (fun en =>
            en.annos.map (fun a => (en.payload, a)))).flatten = pairsOf l := rfl
        rw [hjoin, hfold]
        rfl
  | false =>
      have hone : ∀ en ∈ l, ∃ a, en.annos = [a] := fun en hen =>
        List.length_eq_one.mp ((hok en hen).2.2.2 rfl)
      have hlen : ∀ en ∈ l, en.annos.length = 1 := fun en hen =>
        (hok en hen).2.2.2 rfl
      refine ⟨mkRec ⟨nm, attrs, none, none, base, false, Entries.flatE l⟩
        (RecSpans.indepOne (l.map (fun en =>
          RRec.mk en.payload.1 en.payload.2 (en.annos.headD [])))), ?_, ?_⟩
      · have hopt : optMap (fun en : FEntry =>
            match en.annos with
            | [a] => some (RRec.mk en.payload.1 en.payload.2 a)
            | _ => none) l =
            some (l.map (fun en =>
              RRec.mk en.payload.1 en.payload.2 (en.annos.headD []))) :=
          optMap_eq_some _ _ l (fun en hen => by
            rcases hone en hen with ⟨a, ha⟩
            rw [ha]
            rfl)
        simp only [layer_to_dict, hopt]
        rfl
      · have hdec : (l.map (fun en =>
            RRec.mk en.payload.1 en.payload.2 (en.annos.headD []))).map
              (fun rr => ((RRec.start rr, rr.stop), rr.attrs)) =
            l.map (fun en => (en.payload, en.annos.headD [])) := by
          rw [List.map_map]
          exact List.map_congr_left (fun en _ => rfl)
        simp only [dict_to_layer, mkRec, hdec]
        rw [← pairsOf_singletons l hlen, hfold]
        rfl

instance : ∀ a, Decidable (annoNoList a) := fun a => by
  unfold annoNoList; exact inferInstance

instance : ∀ e, Decidable (entsNoList e) := fun e => by
  cases e <;> (unfold entsNoList; exact inferInstance)

instance : ∀ L, Decidable (NoListValues L) := fun L => by
  unfold NoListValues; exact inferInstance

instance : ∀ {β : Type} (amb : Bool) (attrs : List String) (en : GEntry β),
    Decidable (entryOk amb attrs en) := fun amb attrs en => by
  unfold entryOk; exact inferInstance

/-- The fixed layer context of the concrete examples below: one base layer
named `words` with spans `[0,2)` and `[3,6)`. -/
def ctxWords : Ctx :=
  fun n => if n = "words" then some [(0, 2), (3, 6)] else none

end ser

/-- C6: the round trip is refuted by the importer's value coercion, visible
in src/: `_dict_to_layer` pipes every attribute value of a parent-attached or
enveloping layer through `list_to_tuple` (dict_importer.py lines 6-9 and 33),
so a valid parent-attached layer carrying the list value `["x"]` comes back
with the tuple value `("x",)` — a layer different from the original. -/
theorem C6_counterexample :
    ser.ValidInCtx ser.ctxWords
      ⟨"morph", ["a"], some "words", none, "words", true,
        ser.Entries.flatE [⟨(0, 2), [[("a", ser.Value.listV ["x"])]]⟩]⟩ ∧
    ser.layer_to_dict ser.ctxWords
      ⟨"morph", ["a"], some "words", none, "words", true,
        ser.Entries.flatE [⟨(0, 2), [[("a", ser.Value.listV ["x"])]]⟩]⟩ =
      some ⟨"morph", ["a"], some "words", none, "words", true,
        ser.RecSpans.parentAmb [[⟨0, [("a", ser.Value.listV ["x"])]⟩]]⟩ ∧
    ser.dict_to_layer ser.ctxWords
      ⟨"morph", ["a"], some "words", none, "words", true,
        ser.RecSpans.parentAmb [[⟨0, [("a", ser.Value.listV ["x"])]⟩]]⟩ =
      some ⟨"morph", ["a"], some "words", none, "words", true,
        ser.Entries.flatE [⟨(0, 2), [[("a", ser.Value.tupleV ["x"])]]⟩]⟩ ∧
    (⟨"morph", ["a"], some "words", none, "words", true,
        ser.Entries.flatE [⟨(0, 2), [[("a", ser.Value.tupleV ["x"])]]⟩]⟩ :
      ser.SerLayer) ≠
      ⟨"morph", ["a"], some "words", none, "words", true,
        ser.Entries.flatE [⟨(0, 2), [[("a", ser.Value.listV ["x"])]]⟩]⟩ := by
  refine ⟨⟨by decide, by decide, ⟨[(0, 2), (3, 6)], rfl, by decide⟩⟩,
    by decide, by decide, by decide⟩

/-- C6 (amended): for every layer valid over its context and carrying no
list-valued attribute, of any topology representable in the record schema
`_dict_to_layer` consumes (independent, parent-attached, enveloping — the
schema has no field or branch for a fragmented layer), exporting to the
record form and importing the record back over the same context yields the
layer unchanged.  Without the no-list-value condition only equality up to the
importer's list-to-tuple coercion holds (see the counterexample). -/
theorem C6_round_trip_up_to_coercion (ctx : ser.Ctx) (L : ser.SerLayer)
    (hv : ser.ValidInCtx ctx L) (hnl : ser.NoListValues L) :
    ∃ r, ser.layer_to_dict ctx L = some r ∧ ser.dict_to_layer ctx r = some L := by
  obtain ⟨nm, attrs, par, env, base, amb, ents⟩ := L
  cases par with
  | some p =>
      cases env with
      | none =>
          cases ents with
          | flatE l =>
              obtain ⟨hsort, hok, plocs, hctx, hmem⟩ := hv
              exact ser.round_trip_parent ctx nm p base attrs amb l plocs
                hctx hsort hok hmem hnl
          | compE l => exact (hv : False).elim
      | some e => exact (hv : False).elim
  | none =>
      cases env with
      | some ename =>
          cases ents with
          | compE l =>
              obtain ⟨hsort, hok, hne, elocs, hctx, hmem⟩ := hv
              exact ser.round_trip_env ctx nm ename base attrs amb l elocs
                hctx hsort hok hmem hnl
          | flatE l => exact (hv : False).elim
      | none =>
          cases ents with
          | flatE l =>
              obtain ⟨hsort, hok⟩ := hv
              exact ser.round_trip_indep ctx nm base attrs amb l hsort hok
          | compE l => exact (hv : False).elim

theorem C6_round_trip_up_to_coercion_witness :
    (ser.ValidInCtx ser.ctxWords
      ⟨"sents", ["a"], none, some "words", "words", false,
        ser.Entries.compE [⟨[(0, 2), (3, 6)], [[("a", ser.Value.str "x")]]⟩]⟩ ∧
     ser.NoListValues
      ⟨"sents", ["a"], none, some "words", "words", false,
        ser.Entries.compE [⟨[(0, 2), (3, 6)], [[("a", ser.Value.str "x")]]⟩]⟩) ∧
    ∃ r, ser.layer_to_dict ser.ctxWords
        ⟨"sents", ["a"], none, some "words", "words", false,
          ser.Entries.compE [⟨[(0, 2), (3, 6)], [[("a", ser.Value.str "x")]]⟩]⟩
        = some r ∧
      ser.dict_to_layer ser.ctxWords r =
        some ⟨"sents", ["a"], none, some "words", "words", false,
          ser.Entries.compE [⟨[(0, 2), (3, 6)], [[("a", ser.Value.str "x")]]⟩]⟩ :=
  ⟨⟨⟨by decide, by decide, by decide, ⟨[(0, 2), (3, 6)], rfl, by decide⟩⟩, by decide⟩,
   C6_round_trip_up_to_coercion ser.ctxWords
     ⟨"sents", ["a"], none, some "words", "words", false,
       ser.Entries.compE [⟨[(0, 2), (3, 6)], [[("a", ser.Value.str "x")]]⟩]⟩
     ⟨by decide, by decide, by decide, ⟨[(0, 2), (3, 6)], rfl, by decide⟩⟩
     (by decide)⟩
